import Mathlib

/-!
Verification of the numero number/numeral converter.

This file gives a shallow embedding of the library core in
src/src/numero/numero.cpp (vocabulary tables, place-string algebra, the
numeral-to-number parsing engine, the number classifier and part extractor,
and the number-to-numeral emission engine), together with theorems settling
the frozen claims about it.  Digit strings are embedded as `List Char`;
fallible C++ functions (those that throw) are embedded as `Except num_error`.
All `uint32_t` arithmetic that can overflow is taken modulo 2^32.
-/

namespace num

/-- Embedding of a `std::string` literal as a list of characters. -/
def str (s : String) : List Char := s.data

instance exceptDecEq {ε α : Type} [DecidableEq ε] [DecidableEq α] : DecidableEq (Except ε α) := fun a b =>
  match a, b with
  | .ok x, .ok y =>
    if h : x = y then isTrue (by rw [h]) else isFalse (fun hc => by cases hc; exact h rfl)
  | .error x, .error y =>
    if h : x = y then isTrue (by rw [h]) else isFalse (fun hc => by cases hc; exact h rfl)
  | .ok _, .error _ => isFalse (fun hc => by cases hc)
  | .error _, .ok _ => isFalse (fun hc => by cases hc)

/-- `enum class naming_system_t` from numero.h. -/
inductive naming_system_t where
  | undefined
  | short_scale
  | long_scale
deriving DecidableEq

/-- `struct conversion_options_t` from numero.h, with its default member values. -/
structure conversion_options_t where
  naming_system : naming_system_t := .short_scale
  language : String := "en-us"
  debug_output : Bool := false
  use_scientific_notation : Bool := false
  use_thousands_separators : Bool := true
  force_leading_zero : Bool := true
  thousands_separator_symbol : Char := ','
  decimal_separator_symbol : Char := '.'

/-- The default-constructed `conversion_options_t`. -/
def default_options : conversion_options_t := {}

/-- The distinct error conditions thrown by the C++ core (each constructor is
one distinct throw site family; the C++ exception message text is not modelled,
but the sub-numeral bookkeeping feeding those messages is kept in the parser
state). `stoiOutOfRange` is the `std::out_of_range` escaping from `std::stoi`. -/
inductive num_error where
  | emptyNumeral
  | invalidNumeral
  | pointTwice
  | unknownTerm (term : List Char)
  | notAllowedHere (term : List Char)
  | numberGreater99
  | unsupportedScale
  | invalidRootTerm (root : List Char)
  | duplicateMagnitude
  | outOfOrderMagnitude
  | greaterPrecedeLower
  | lowerMultAfterHigher
  | zeroInIntegral
  | overlappingPlaces
  | unresolvedTerm (value : List Char)
  | unsupportedMagnitude
  | unresolvedRoot
  | unresolvedPrefix
  | stoiOutOfRange
deriving DecidableEq

/-- The regex character class `\d`. -/
def isDigitCh (c : Char) : Bool := decide ('0' ≤ c) && decide (c ≤ '9')

/-- The regex character class `[a-z]`. -/
def isLowerCh (c : Char) : Bool := decide ('a' ≤ c) && decide (c ≤ 'z')

/-- The regex character class `\s` (ECMAScript whitespace, ASCII part). -/
def isSpaceCh (c : Char) : Bool :=
  decide (c = ' ') || decide (c = '\t') || decide (c = '\n') || decide (c = '\x0b') ||
  decide (c = '\x0c') || decide (c = '\r')

/-- `value_to_prefix` (numero.cpp): Latin prefixes, keyed by value (entries in
declaration order; the left bimap view is an exact lookup so order is immaterial). -/
def value_to_prefix : List (Nat × List Char) :=
  [(1, str ("un")), (2, str ("duo")), (3, str ("tre")), (4, str ("quattuor")),
   (5, str ("quin")), (6, str ("sex")), (7, str ("septen")), (8, str ("octo")),
   (9, str ("novem"))]

/-- The right view of the `value_to_prefix` bimap: the same pairs ordered
lexicographically by the prefix string, which is the iteration order of
`value_to_prefix.right` that `find_prefix` walks in numero.cpp. -/
def value_to_prefix_right : List (List Char × Nat) :=
  [(str ("duo"), 2), (str ("novem"), 9), (str ("octo"), 8), (str ("quattuor"), 4),
   (str ("quin"), 5), (str ("septen"), 7), (str ("sex"), 6), (str ("tre"), 3),
   (str ("un"), 1)]

/-- `factor_to_root` (numero.cpp): Latin roots keyed by factor. -/
def factor_to_root : List (Nat × List Char) :=
  [(1, str ("m")), (2, str ("b")), (3, str ("tr")), (4, str ("quadr")),
   (5, str ("quint")), (6, str ("sext")), (7, str ("sept")), (8, str ("oct")),
   (9, str ("non")), (10, str ("dec")), (20, str ("vigint")), (30, str ("trigint")),
   (40, str ("quadragint")), (50, str ("quinquagint")), (60, str ("sexagint")),
   (70, str ("septuagint")), (80, str ("octogint")), (90, str ("nonagint")),
   (100, str ("cent"))]

/-- `value_to_term` (numero.cpp): English base terms keyed by their digit-string value. -/
def value_to_term : List (List Char × List Char) :=
  [(str ("0"), str ("zero")), (str ("1"), str ("one")), (str ("2"), str ("two")),
   (str ("3"), str ("three")), (str ("4"), str ("four")), (str ("5"), str ("five")),
   (str ("6"), str ("six")), (str ("7"), str ("seven")), (str ("8"), str ("eight")),
   (str ("9"), str ("nine")), (str ("10"), str ("ten")), (str ("11"), str ("eleven")),
   (str ("12"), str ("twelve")), (str ("13"), str ("thirteen")), (str ("14"), str ("fourteen")),
   (str ("15"), str ("fifteen")), (str ("16"), str ("sixteen")), (str ("17"), str ("seventeen")),
   (str ("18"), str ("eighteen")), (str ("19"), str ("nineteen")), (str ("20"), str ("twenty")),
   (str ("30"), str ("thirty")), (str ("40"), str ("fourty")), (str ("50"), str ("fifty")),
   (str ("60"), str ("sixty")), (str ("70"), str ("seventy")), (str ("80"), str ("eighty")),
   (str ("90"), str ("ninety"))]

/-- `multiplicative_shifts` (numero.cpp): the fixed multiplicative shifts. -/
def multiplicative_shifts : List (Nat × List Char) :=
  [(2, str ("hundred")), (3, str ("thousand")), (4, str ("myriad"))]

/-- Exact lookup in the left view of a bimap (key is the first component). -/
def lookupL {β : Type} [DecidableEq β] (table : List (Nat × β)) (key : Nat) : Option β :=
  (table.find? (fun p => decide (p.1 = key))).map (fun p => p.2)

/-- Exact lookup in the right view of a bimap (key is the second component). -/
def lookupR {β : Type} [DecidableEq β] (table : List (Nat × β)) (key : β) : Option Nat :=
  (table.find? (fun p => decide (p.2 = key))).map (fun p => p.1)

/-- Exact lookup by first component in a string-to-string table. -/
def lookupSL (table : List (List Char × List Char)) (key : List Char) : Option (List Char) :=
  (table.find? (fun p => decide (p.1 = key))).map (fun p => p.2)

/-- Exact lookup by second component in a string-to-string table. -/
def lookupSR (table : List (List Char × List Char)) (key : List Char) : Option (List Char) :=
  (table.find? (fun p => decide (p.2 = key))).map (fun p => p.1)

/-- `find_prefix` (numero.cpp): walk `value_to_prefix.right` in its iteration
order and return the first (prefix, value) pair whose prefix the subject
starts with. -/
def find_prefix (subject : List Char) : Option (List Char × Nat) :=
  value_to_prefix_right.find? (fun p => decide (subject.take p.1.length = p.1))

/-- The `std::stringstream >> int` read used by `find_additive_value`: skip no
whitespace (tokens contain none), read an optional sign and then leading
digits; a read with no digits yields 0. -/
def stream_int (cs : List Char) : Int :=
  let (sgn, ds) : Int × List Char :=
    match cs with
    | '-' :: r => (-1, r)
    | '+' :: r => (1, r)
    | _ => (1, cs)
  sgn * (ds.takeWhile isDigitCh).foldl (fun a c => a * 10 + ((c.toNat : Int) - 48)) 0

/-- `find_additive_value` (numero.cpp).  A term containing a digit anywhere
(regex search for `\d+`) is passed through verbatim, subject only to the
`> 99` check; otherwise the term is looked up among the base terms and its
digit-string value returned, subject to the `max_allowed_digits` width check. -/
def find_additive_value (term : List Char) (max_allowed_digits : Nat)
    (allow_numbers_greater_99 : Bool) : Except num_error (List Char) :=
  if term.any isDigitCh then
    let number := stream_int term
    if ¬ allow_numbers_greater_99 ∧ number > 99 then .error .numberGreater99
    else .ok term
  else
    match lookupSR value_to_term term with
    | some value =>
      if value.length > max_allowed_digits then .error (.notAllowedHere term)
      else .ok value
    | none => .error (.unknownTerm term)

/-- `find_multiplicative_shift` (numero.cpp).  The regex
`(.*)(illion|illiard)$` splits off the shortest matching Latin suffix; the
root base is looked up directly, or decomposed into a Latin prefix (first
match in `value_to_prefix.right` iteration order) plus a root. -/
def find_multiplicative_shift (term : List Char)
    (conversion_options : conversion_options_t) : Except num_error Nat :=
  let illion := str ("illion")
  let illiard := str ("illiard")
  if term.drop (term.length - 6) = illion ∨ term.drop (term.length - 7) = illiard then
    let root_suffix := if term.drop (term.length - 6) = illion then illion else illiard
    let root_base := term.take (term.length - root_suffix.length)
    if conversion_options.naming_system ≠ .long_scale ∧ root_suffix = illiard then
      .error .unsupportedScale
    else
      let scale_shift : Nat → Nat := fun root_factor =>
        if conversion_options.naming_system = .long_scale then
          if root_suffix = illiard then 6 * root_factor + 3 else 6 * root_factor
        else 3 * root_factor + 3
      match lookupR factor_to_root root_base with
      | some root_factor => .ok (scale_shift root_factor)
      | none =>
        match find_prefix root_base with
        | some pv =>
          let actual_root := root_base.drop pv.1.length
          match lookupR factor_to_root actual_root with
          | some root_factor => .ok (scale_shift (root_factor + pv.2))
          | none => .error (.invalidRootTerm actual_root)
        | none => .error (.invalidRootTerm root_base)
  else
    match lookupR multiplicative_shifts term with
    | some shift => .ok shift
    | none => .error (.unknownTerm term)

/-- Right-aligned digit merge on reversed digit lists: the recursion of the
`merge_places` loop, including the prepend of leftover high source digits. -/
def merge_rev : List Char → List Char → Except num_error (List Char)
  | [], t => .ok t
  | s, [] => .ok s
  | sc :: s, tc :: t =>
    if sc ≠ '0' ∧ tc ≠ '0' then .error .overlappingPlaces
    else (merge_rev s t).map (fun r => (if sc ≠ '0' then sc else tc) :: r)

/-- `merge_places` (numero.cpp): overlay `source` onto `target`, aligned at
the right end; an empty target is replaced by the source. -/
def merge_places (source target : List Char) : Except num_error (List Char) :=
  if target = [] then .ok source
  else (merge_rev source.reverse target.reverse).map List.reverse

/-- `shift_places` (numero.cpp): append `places_count` zero digits. -/
def shift_places (places_count : Nat) (target : List Char) : List Char :=
  target ++ List.replicate places_count '0'

/-- `add_thousands_separators` (numero.cpp): a no-op if the separator is
already present, otherwise insert it before every index `i > 0` with
`i % 3 = length % 3`. -/
def add_thousands_separators (thousands_separator_symbol : Char) (target : List Char) : List Char :=
  if target.any (fun c => decide (c = thousands_separator_symbol)) then target
  else
    let offset := target.length % 3
    (target.enum.map (fun p =>
      if 0 < p.1 ∧ p.1 % 3 = offset then [thousands_separator_symbol, p.2] else [p.2])).flatten

/-- `strip_thousands_separators` (numero.cpp): remove every separator occurrence. -/
def strip_thousands_separators (thousands_separator_symbol : Char) (target : List Char) : List Char :=
  target.filter (fun c => decide (c ≠ thousands_separator_symbol))

/-- A character matched by the tokenizer split pattern `[\s-]+`. -/
def isTokSep (c : Char) : Bool := isSpaceCh c || decide (c = '-')

/-- Worker for `splitSeps`: `cur` holds the reversed current token, `inTok`
records whether a token is open (so that a trailing separator run yields no
empty final token while a leading run yields an empty first token, matching
`std::sregex_token_iterator` with submatch -1). -/
def splitGo (isSep : Char → Bool) : List Char → List Char → Bool → List (List Char)
  | [], cur, inTok => if inTok then [cur.reverse] else []
  | c :: rest, cur, inTok =>
    if isSep c then
      if inTok then cur.reverse :: splitGo isSep rest [] false
      else splitGo isSep rest [] false
    else splitGo isSep rest (c :: cur) true

/-- Split a nonempty string at maximal runs of separator characters, the
token sequence produced by `std::sregex_token_iterator(.., pattern, -1)`. -/
def splitSeps (isSep : Char → Bool) (cs : List Char) : List (List Char) :=
  match cs with
  | [] => []
  | _ => splitGo isSep cs [] true

/-- The state threaded through the `parse_integral_number` token loop
(numero.cpp lines 374-391).  `uint32_t` counters are `Nat` with additions
taken mod 2^32; `last_group_total_multiplicative_shift` starts at
`std::numeric_limits<uint32_t>::max()`. -/
structure ParseIntState where
  negative : Bool := false
  groups : List (List Char) := []
  current_group : List Char := []
  last_term : List Char := []
  last_sub_numeral : List Char := []
  current_sub_numeral : List Char := []
  last_additive_value : List Char := []
  last_multiplicative_shift : Nat := 0
  last_group_total_multiplicative_shift : Nat := 4294967295
  current_group_total_multiplicative_shift : Nat := 0
  last_term_multiplicative : Bool := false
deriving DecidableEq

/-- One iteration of the `parse_integral_number` token loop. -/
def parse_int_step (conversion_options : conversion_options_t) (st : ParseIntState)
    (term : List Char) : Except num_error ParseIntState :=
  let leading := st.groups = [] ∧ st.current_group = []
  let st := if leading then { st with current_sub_numeral := term } else st
  if leading ∧ term = str ("a") then
    .ok { st with current_group := str ("1"), last_term := term }
  else if leading ∧ (term = str ("negative") ∨ term = str ("minus")) then
    .ok { st with negative := true, last_term := term }
  else
    let additive := find_additive_value term 3 (decide (st.groups = [] ∧ st.current_group = []))
    let multiplicative := find_multiplicative_shift term conversion_options
    match additive, multiplicative with
    | .error ea, .error _ => .error ea
    | .ok current_additive_value, _ =>
      -- Process additive term.
      ((if st.last_term_multiplicative ∧ st.last_multiplicative_shift ≥ 3 then
        if st.current_group_total_multiplicative_shift = st.last_group_total_multiplicative_shift then
          .error .duplicateMagnitude
        else if st.current_group_total_multiplicative_shift > st.last_group_total_multiplicative_shift then
          .error .outOfOrderMagnitude
        else
          .ok { st with groups := st.groups ++ [st.current_group], current_group := [],
                        last_sub_numeral := st.current_sub_numeral, current_sub_numeral := term,
                        last_group_total_multiplicative_shift := st.current_group_total_multiplicative_shift,
                        current_group_total_multiplicative_shift := 0,
                        last_multiplicative_shift := 0 }
      else .ok st : Except num_error ParseIntState)).bind fun st =>
      let st := { st with last_term_multiplicative := false }
      if st.last_additive_value ≠ [] ∧ st.last_additive_value.length < current_additive_value.length then
        .error .greaterPrecedeLower
      else
        (merge_places current_additive_value st.current_group).map fun merged =>
          { st with current_group := merged, last_additive_value := current_additive_value,
                    last_term := term }
    | .error _, .ok current_multiplicative_shift =>
      -- Process multiplicative term.
      if current_multiplicative_shift < st.last_multiplicative_shift then
        .error .lowerMultAfterHigher
      else
        let cg := if st.groups = [] ∧ st.current_group = [] then str ("1") else st.current_group
        if cg = str ("0") then .error .zeroInIntegral
        else
          .ok { st with current_sub_numeral := st.current_sub_numeral ++ ' ' :: term,
                        last_term_multiplicative := true,
                        last_multiplicative_shift := current_multiplicative_shift,
                        current_group_total_multiplicative_shift :=
                          (st.current_group_total_multiplicative_shift +
                           current_multiplicative_shift) % 4294967296,
                        current_group := shift_places current_multiplicative_shift cg,
                        last_additive_value := [], last_term := term }

/-- The tail of `parse_integral_number` after the token loop: final magnitude
ordering checks, pushing the last group, the right-aligned merge of all
groups, optional thousands separators and the sign. -/
def parse_int_finish (conversion_options : conversion_options_t)
    (st : ParseIntState) : Except num_error (List Char) :=
  if st.groups = [] ∧ st.current_group = [] ∧ st.negative then .error .emptyNumeral
  else if st.current_group_total_multiplicative_shift = st.last_group_total_multiplicative_shift then
    .error .duplicateMagnitude
  else if st.current_group_total_multiplicative_shift > st.last_group_total_multiplicative_shift then
    .error .outOfOrderMagnitude
  else
    ((st.groups ++ [st.current_group]).foldlM (fun result group => merge_places group result)
      ([] : List Char)).map fun result =>
      let result := if conversion_options.use_thousands_separators then
        add_thousands_separators conversion_options.thousands_separator_symbol result else result
      if st.negative then '-' :: result else result

/-- `parse_integral_number` (numero.cpp). -/
def parse_integral_number (integral : List Char)
    (conversion_options : conversion_options_t) : Except num_error (List Char) :=
  if integral = [] then .ok []
  else
    ((splitSeps isTokSep integral).foldlM (parse_int_step conversion_options) {}).bind
      (parse_int_finish conversion_options)

/-- `parse_fractional_number` (numero.cpp): resolve each token with
`find_additive_value(term, 1, true)` and concatenate the results. -/
def parse_fractional_number (fractional : List Char)
    (conversion_options : conversion_options_t) : Except num_error (List Char) :=
  if fractional = [] then .ok []
  else
    (splitSeps isTokSep fractional).foldlM
      (fun acc digit => (find_additive_value digit 1 true).map (fun v => acc ++ v)) []

/-- The state machine of the `_numeral_pattern` regex
`^(?:[a-z]+|[0-9]+)(?:(?:[\t ]+|-)(?:[a-z]+|[0-9]+))*$`.  States: 0 expects
the start of a token, 1 is inside a lowercase word, 2 is inside a digit run,
3 is inside a blank run separating tokens. -/
def numeral_scan : List Char → Nat → Bool
  | [], s => decide (s = 1) || decide (s = 2)
  | c :: rest, 0 =>
    if isLowerCh c then numeral_scan rest 1
    else if isDigitCh c then numeral_scan rest 2
    else false
  | c :: rest, 1 =>
    if isLowerCh c then numeral_scan rest 1
    else if c = ' ' ∨ c = '\t' then numeral_scan rest 3
    else if c = '-' then numeral_scan rest 0
    else false
  | c :: rest, 2 =>
    if isDigitCh c then numeral_scan rest 2
    else if c = ' ' ∨ c = '\t' then numeral_scan rest 3
    else if c = '-' then numeral_scan rest 0
    else false
  | c :: rest, _ =>
    if c = ' ' ∨ c = '\t' then numeral_scan rest 3
    else if isLowerCh c then numeral_scan rest 1
    else if isDigitCh c then numeral_scan rest 2
    else false

/-- `converter_c::is_numeral` (numero.cpp): match against `_numeral_pattern`
and reject the bare words "negative" and "minus". -/
def is_numeral (input : List Char) : Bool :=
  numeral_scan input 0 && decide (input ≠ str ("negative")) && decide (input ≠ str ("minus"))

/-- Split at each leftmost match of the `to_number` split pattern `" ?point "`
(submatch -1 token iteration).  At a position where the optional leading
space is present the regex prefers it, so the space-first pattern is tried
first. -/
def pointSplitGo : List Char → List Char → List (List Char)
  | ' ' :: 'p' :: 'o' :: 'i' :: 'n' :: 't' :: ' ' :: r, cur => cur.reverse :: pointSplitGo r []
  | 'p' :: 'o' :: 'i' :: 'n' :: 't' :: ' ' :: r, cur => cur.reverse :: pointSplitGo r []
  | c :: rest, cur => pointSplitGo rest (c :: cur)
  | [], cur => [cur.reverse]

/-- The token sequence `parts` that `converter_c::to_number` builds from its
input by splitting on `" ?point "`. -/
def pointSplit (cs : List Char) : List (List Char) := pointSplitGo cs []

/-- `converter_c::to_number` (numero.cpp). -/
def to_number (conversion_options : conversion_options_t)
    (numeral : List Char) : Except num_error (List Char) :=
  if numeral = [] then .error .emptyNumeral
  else if ¬ is_numeral numeral then .error .invalidNumeral
  else
    match pointSplit numeral with
    | [part0] => parse_integral_number part0 conversion_options
    | [part0, part1] =>
      (parse_integral_number part0 conversion_options).bind fun number =>
        (parse_fractional_number part1 conversion_options).map fun parsed_fractional =>
          let number := if number = [] then str ("0") else number
          let number := number ++ [conversion_options.decimal_separator_symbol]
          if parsed_fractional = [] then number ++ str ("0")
          else number ++ parsed_fractional
    | _ => .error .pointTwice

/-- Tail of the grouped-integral alternative `(?:\T\d{3})*` of the number
pattern: a sequence of (separator, three digits) blocks. -/
def matchATail (thousands_separator_symbol : Char) : List Char → Bool
  | [] => true
  | c :: rest =>
    decide (c = thousands_separator_symbol) &&
      match rest with
      | d1 :: d2 :: d3 :: r =>
        isDigitCh d1 && isDigitCh d2 && isDigitCh d3 && matchATail thousands_separator_symbol r
      | _ => false

/-- The grouped-integral alternative `\d{1,3}(?:\T\d{3})*` of the number
pattern, as a language membership test on the integral segment. -/
def matchA (thousands_separator_symbol : Char) (cs : List Char) : Bool :=
  (List.range 3).any fun i =>
    decide (i + 1 ≤ cs.length) && (cs.take (i + 1)).all isDigitCh &&
      matchATail thousands_separator_symbol (cs.drop (i + 1))

/-- The capture groups of the number pattern
`^(-)?((?:\d{1,3}(?:\T\d{3})*)|(?:\d+))?(?:\D(\d+))?(?:e(-?\d+))?$`
built by `get_number_pattern_regex` (numero.cpp). -/
structure RegexCaps where
  negative : Bool
  integral? : Option (List Char)
  fractional? : Option (List Char)
  exponent? : Option (List Char)
deriving DecidableEq

/-- Matching of the anchored number pattern against the whole input.  The
pattern's parts are delimited unambiguously (for separator symbols that are
not digits, not `e` and not `-`), so the ECMAScript backtracking match is
realized deterministically: optional sign, then the maximal run of
digits/thousands-separators as the integral segment (which must belong to
one of the two integral alternatives if nonempty), then an optional decimal
separator with at least one digit, then an optional exponent reaching the
end of the input.  `numberRegexCore` is the integral/fractional/exponent
phase after the optional sign has been consumed. -/
def numberRegexCore (thousands_separator_symbol decimal_separator_symbol : Char)
    (negative : Bool) (cs1 : List Char) : Option RegexCaps :=
  let isIntegralCh : Char → Bool := fun c =>
    isDigitCh c || decide (c = thousands_separator_symbol)
  let seg := cs1.takeWhile isIntegralCh
  let cs2 := cs1.dropWhile isIntegralCh
  if seg ≠ [] ∧ ¬ (matchA thousands_separator_symbol seg ∨ seg.all isDigitCh) then none
  else
    let integral? := if seg = [] then none else some seg
    let afterFrac : Option (Option (List Char) × List Char) :=
      match cs2 with
      | c :: r =>
        if c = decimal_separator_symbol then
          let fd := r.takeWhile isDigitCh
          if fd = [] then none else some (some fd, r.dropWhile isDigitCh)
        else some (none, c :: r)
      | [] => some (none, [])
    afterFrac.bind fun fr =>
      match fr.2 with
      | [] => some ⟨negative, integral?, fr.1, none⟩
      | c :: r =>
        if c = 'e' then
          let (sgn, ds) :=
            match r with
            | c2 :: r2 => if c2 = '-' then ([c2], r2) else ([], c2 :: r2)
            | [] => ([], [])
          if ds ≠ [] ∧ ds.all isDigitCh then
            some ⟨negative, integral?, fr.1, some (sgn ++ ds)⟩
          else none
        else none

def numberRegexMatch (thousands_separator_symbol decimal_separator_symbol : Char)
    (cs : List Char) : Option RegexCaps :=
  match cs with
  | c :: r =>
    if c = '-' then numberRegexCore thousands_separator_symbol decimal_separator_symbol true r
    else numberRegexCore thousands_separator_symbol decimal_separator_symbol false (c :: r)
  | [] => numberRegexCore thousands_separator_symbol decimal_separator_symbol false []

/-- `std::stoi` on a `-?\d+` capture: the numeric value if it fits a 32-bit
`int`, a `std::out_of_range` otherwise. -/
def stoi (cs : List Char) : Except num_error Int :=
  let sgn : Int := match cs with
    | c :: _ => if c = '-' then -1 else 1
    | [] => 1
  let ds : List Char := match cs with
    | c :: r => if c = '-' then r else c :: r
    | [] => []
  let v : Int := sgn * ds.foldl (fun a c => a * 10 + ((c.toNat : Int) - 48)) 0
  if v < -2147483648 ∨ v > 2147483647 then .error .stoiOutOfRange else .ok v

/-- The exponent-resolution block of `extract_number_parts` (numero.cpp lines
703-738), executed when `resolve_exponent` holds and the exponent is nonzero:
returns the new (integral, fractional) pair. -/
def resolve_exponent_step (force_leading_zero : Bool)
    (integral_part fractional_part : List Char) (exponent : Int) : List Char × List Char :=
  let integral_part_size : Int := integral_part.length
  let fractional_part_size : Int := fractional_part.length
  let full_number_size := integral_part_size + fractional_part_size
  let decimal_separator_position := integral_part_size + exponent
  let offset := decimal_separator_position - full_number_size
  let full_number := integral_part ++ fractional_part
  if offset > 0 then
    (full_number ++ List.replicate offset.toNat '0', [])
  else if decimal_separator_position < 0 then
    (if force_leading_zero then str ("0") else [],
     List.replicate (-decimal_separator_position).toNat '0' ++ full_number)
  else
    (full_number.take decimal_separator_position.toNat,
     full_number.drop decimal_separator_position.toNat)

/-- The decomposition produced by `extract_number_parts`. -/
structure NumberParts where
  negative : Bool
  integral : List Char
  fractional : List Char
  exponent : Int
deriving DecidableEq

/-- `converter_c::extract_number_parts` (numero.cpp).  `.ok none` is the
`return false` path (no match, or neither an integral nor a fractional part);
the `std::out_of_range` of `std::stoi` on the exponent capture escapes as an
error. -/
def extract_number_parts (conversion_options : conversion_options_t) (input : List Char)
    (resolve_exponent : Bool := true) : Except num_error (Option NumberParts) :=
  match numberRegexMatch conversion_options.thousands_separator_symbol
      conversion_options.decimal_separator_symbol input with
  | none => .ok none
  | some caps =>
    if caps.integral? = none ∧ caps.fractional? = none then .ok none
    else
      let integral_part := caps.integral?.getD []
      let fractional_part := caps.fractional?.getD []
      (match caps.exponent? with
       | some es => stoi es
       | none => .ok 0).map fun exponent =>
        let integral_part := strip_thousands_separators
          conversion_options.thousands_separator_symbol integral_part
        if resolve_exponent ∧ exponent ≠ 0 then
          let p := resolve_exponent_step conversion_options.force_leading_zero
            integral_part fractional_part exponent
          some ⟨caps.negative, p.1, p.2, exponent⟩
        else
          some ⟨caps.negative, integral_part, fractional_part, exponent⟩

/-- `converter_c::is_number` (numero.cpp): whether `extract_number_parts`
(with exponent resolution) accepts the input. -/
def is_number (conversion_options : conversion_options_t)
    (input : List Char) : Except num_error Bool :=
  (extract_number_parts conversion_options input).map Option.isSome

/-- The `-illion`/`-illiard` emission block of `parse_integral_numeral`
(numero.cpp lines 822-864), reached for a group ending at digit position
`place ≥ 6` that contains a non-zero digit, split in two.
`magnitude_root_word` is the root lookup chain: the direct root-table entry,
or a Latin prefix of `factor % 10` glued to the root of the base factor. -/
def magnitude_root_word (factor : Nat) (suffix : List Char) : Except num_error (List Char) :=
  match lookupL factor_to_root factor with
  | some root => .ok (root ++ suffix)
  | none =>
    let prefix_value := factor % 10
    match lookupL value_to_prefix prefix_value with
    | some prefix_word =>
      let base_factor := factor - prefix_value
      match lookupL factor_to_root base_factor with
      | some root => .ok (prefix_word ++ root ++ suffix)
      | none => .error .unresolvedRoot
    | none => .error .unresolvedPrefix

/-- The magnitude-word emission itself: in short scale the factor is
`(place - 3) / 3` and the remainder is pinned to 0; otherwise the factor is
`place / 6` and the remainder `place % 6` selects the `-illiard` suffix;
factors above 100 are refused. -/
def magnitude_word (naming_system : naming_system_t) (place : Nat) : Except num_error (List Char) :=
  let factor := if naming_system = .short_scale then (place - 3) / 3 else place / 6
  let remainder := if naming_system = .short_scale then 0 else place % 6
  if factor > 100 then .error .unsupportedMagnitude
  else magnitude_root_word factor (if remainder = 3 then str ("illiard ") else str ("illion "))

/-- The trailing if/else-if chain of the `parse_integral_numeral` digit loop
(numero.cpp lines 822-872): the magnitude word of a completed non-zero group,
the word "thousand" at position 3, or the word "hundred" after a non-zero
hundreds digit. -/
def group_end_emission (naming_system : naming_system_t) (any_group_digit_not_zero : Bool)
    (digit : Char) (place : Nat) : Except num_error (List Char) :=
  if any_group_digit_not_zero ∧ place ≥ 6 ∧ place % 3 = 0 then
    magnitude_word naming_system place
  else if any_group_digit_not_zero ∧ place = 3 then .ok (str ("thousand "))
  else if digit ≠ '0' ∧ place % 3 = 2 then .ok (str ("hundred "))
  else .ok []

/-- The base/two-digit term emission of the `parse_integral_numeral` digit
loop (numero.cpp lines 792-819): emit the term for `value`, either directly
(`"thirteen "`), or as a tens word plus hyphen (`"twenty-"`); the returned
flag is the new `added_two_digits_term`. -/
def encode_term (value : List Char) (added_two_digits_term : Bool) :
    Except num_error (List Char × Bool) :=
  if value ≠ [] ∧ ¬ added_two_digits_term then
    match lookupSL value_to_term value with
    | some word => .ok (word ++ [' '], added_two_digits_term || decide (value.length = 2))
    | none =>
      if value.length = 2 then
        let value2 := [value.headD '0', '0']
        match lookupSL value_to_term value2 with
        | some word => .ok (word ++ ['-'], added_two_digits_term)
        | none => .error (.unresolvedTerm value2)
      else .error (.unresolvedTerm value)
  else .ok ([], added_two_digits_term)

/-- The digit loop of `parse_integral_numeral`.  The position `place` of the
head digit equals the length of the remaining tail, so it is not threaded
separately; `integral0` is the whole integral string (the loop compares
`integral == "0"`). -/
def pin_go (naming_system : naming_system_t) (integral0 : List Char) :
    List Char → Bool → Bool → List Char → Except num_error (List Char)
  | [], _, _, _ => .ok []
  | digit :: rest, any0, added0, group_digits0 =>
    let place := rest.length
    let group_place := place % 3
    let (group_digits, any, added) :=
      if group_place = 2 then ([], false, false) else (group_digits0, any0, added0)
    let group_digits := group_digits ++ [digit]
    let any := any || decide (digit ≠ '0')
    let value : List Char := if digit ≠ '0' ∨ integral0 = str ("0") then [digit] else []
    let value := if digit ≠ '0' ∧ group_place = 1 then
        value ++ (match rest with | next :: _ => [next] | [] => []) else value
    (encode_term value added).bind fun enc =>
      (group_end_emission naming_system any digit place).bind fun tailWord =>
        (pin_go naming_system integral0 rest any enc.2 group_digits).map fun out =>
          enc.1 ++ tailWord ++ out

/-- Drop trailing whitespace, the `rtrim` of numero.cpp. -/
def rtrimL (cs : List Char) : List Char := (cs.reverse.dropWhile isSpaceCh).reverse

/-- `parse_integral_numeral` (numero.cpp). -/
def parse_integral_numeral (integral : List Char)
    (conversion_options : conversion_options_t) : Except num_error (List Char) :=
  if integral = [] then .ok []
  else (pin_go conversion_options.naming_system integral integral false false []).map rtrimL

/-- `parse_fractional_numeral` (numero.cpp): one base-term word per digit. -/
def parse_fractional_numeral (fractional : List Char)
    (conversion_options : conversion_options_t) : Except num_error (List Char) :=
  if fractional = [] then .ok []
  else
    (fractional.foldlM (fun acc digit =>
      (match lookupSL value_to_term [digit] with
       | some word => .ok (acc ++ word ++ [' '])
       | none => .error (.unresolvedTerm [digit]) : Except num_error (List Char))) []).map rtrimL

/-- `converter_c::to_numeral` (numero.cpp).  An empty input or an input that
is not a number yields the empty string (no exception); errors of
`extract_number_parts` and of the two emitters propagate. -/
def to_numeral (conversion_options : conversion_options_t)
    (number : List Char) : Except num_error (List Char) :=
  if number = [] then .ok []
  else
    (extract_number_parts conversion_options number).bind fun parts? =>
      match parts? with
      | none => .ok []
      | some parts =>
        let numeral := if parts.negative then str ("negative") else []
        ((if parts.integral ≠ [] then
          (parse_integral_numeral parts.integral conversion_options).map fun parsed_integral =>
            if parsed_integral ≠ [] then
              if numeral = [] ∧ (parts.integral ≠ str ("0") ∨ conversion_options.force_leading_zero) then
                parsed_integral
              else if numeral ≠ [] then numeral ++ ' ' :: parsed_integral
              else numeral
            else numeral
        else .ok numeral : Except num_error (List Char))).bind fun numeral =>
        if parts.fractional ≠ [] then
          (parse_fractional_numeral parts.fractional conversion_options).map fun parsed_fractional =>
            if parsed_fractional ≠ [] then
              if numeral = [] then str ("point ") ++ parsed_fractional
              else numeral ++ str (" point ") ++ parsed_fractional
            else numeral
        else .ok numeral

/-- `converter_c::convert` (numero.cpp). -/
def convert (conversion_options : conversion_options_t)
    (input : List Char) : Except num_error (List Char) :=
  (is_number conversion_options input).bind fun b =>
    if b then to_numeral conversion_options input else to_number conversion_options input

/-! Spec-side definitions used to state the claims. -/

/-- The word the spec builds for a Latin factor: the direct root-table entry
when one exists, otherwise the Latin prefix of `factor % 10` glued to the
root of `factor - factor % 10`. -/
def latin_word (factor : Nat) : List Char :=
  match lookupL factor_to_root factor with
  | some root => root
  | none =>
    (lookupL value_to_prefix (factor % 10)).getD [] ++
      (lookupL factor_to_root (factor - factor % 10)).getD []

/-- Joining a list of words with single spaces. -/
def joinWords : List (List Char) → List Char
  | [] => []
  | [w] => w
  | w :: ws => w ++ ' ' :: joinWords ws

/-- The value of a digit run, read in base 10. -/
def digits_val (ds : List Char) : Int :=
  ds.foldl (fun a c => a * 10 + ((c.toNat : Int) - 48)) 0

/-- Modelled from the spec: the integral-group alternative `d{1,3}(Td{3})*`
of the documented number shape (§4.B), as a decomposition into a leading
group of one to three digits followed by separator-prefixed three-digit
groups. -/
def grouped_integral (thousands_separator_symbol : Char) (cs : List Char) : Prop :=
  ∃ (g : List Char) (gs : List (List Char)),
    cs = g ++ (gs.map (fun b => thousands_separator_symbol :: b)).flatten ∧
    1 ≤ g.length ∧ g.length ≤ 3 ∧ g.all isDigitCh = true ∧
    ∀ b ∈ gs, b.length = 3 ∧ b.all isDigitCh = true

/-- Modelled from the spec: the documented number shape (§4.B)
`[-]? ( d{1,3}(Td{3})* | d+ ) ( D d+ )? ( e -? d+ )?` together with the
requirement that at least one of the integral/fractional digit groups is
present. -/
def number_shape (thousands_separator_symbol decimal_separator_symbol : Char)
    (cs : List Char) : Prop :=
  ∃ sgn I F E, cs = sgn ++ I ++ F ++ E ∧
    (sgn = [] ∨ sgn = ['-']) ∧
    (I = [] ∨ grouped_integral thousands_separator_symbol I ∨
      (I ≠ [] ∧ I.all isDigitCh = true)) ∧
    (F = [] ∨ ∃ fd, F = decimal_separator_symbol :: fd ∧ fd ≠ [] ∧ fd.all isDigitCh = true) ∧
    (E = [] ∨ ∃ es ed, E = 'e' :: (es ++ ed) ∧ (es = [] ∨ es = ['-']) ∧
      ed ≠ [] ∧ ed.all isDigitCh = true) ∧
    (I ≠ [] ∨ F ≠ [])

/-- The documented number shape strengthened by the requirement that the
exponent digits, when present, denote a value inside the 32-bit `int`
range (the precondition under which `std::stoi` returns). -/
def number_shape_fits (thousands_separator_symbol decimal_separator_symbol : Char)
    (cs : List Char) : Prop :=
  ∃ sgn I F E, cs = sgn ++ I ++ F ++ E ∧
    (sgn = [] ∨ sgn = ['-']) ∧
    (I = [] ∨ grouped_integral thousands_separator_symbol I ∨
      (I ≠ [] ∧ I.all isDigitCh = true)) ∧
    (F = [] ∨ ∃ fd, F = decimal_separator_symbol :: fd ∧ fd ≠ [] ∧ fd.all isDigitCh = true) ∧
    (E = [] ∨ ∃ es ed, E = 'e' :: (es ++ ed) ∧ (es = [] ∨ es = ['-']) ∧
      ed ≠ [] ∧ ed.all isDigitCh = true ∧
      -2147483648 ≤ (if es = [] then 1 else -1) * digits_val ed ∧
      (if es = [] then 1 else -1) * digits_val ed ≤ 2147483647) ∧
    (I ≠ [] ∨ F ≠ [])

/-- Separator symbols for which the number pattern's parts are delimited
unambiguously: neither separator is a digit, the exponent marker or the
sign, and the two differ. -/
def sep_sane (thousands_separator_symbol decimal_separator_symbol : Char) : Prop :=
  isDigitCh thousands_separator_symbol = false ∧ isDigitCh decimal_separator_symbol = false ∧
  thousands_separator_symbol ≠ decimal_separator_symbol ∧
  thousands_separator_symbol ≠ 'e' ∧ decimal_separator_symbol ≠ 'e' ∧
  thousands_separator_symbol ≠ '-' ∧ decimal_separator_symbol ≠ '-'

/-- A plain lowercase word token: nonempty, all lowercase letters (hence
free of tokenizer separators and of the \"point\"-split characters). -/
def plainWord (w : List Char) : Prop :=
  w ≠ [] ∧ ∀ c ∈ w, (isLowerCh c = true ∧ isTokSep c = false ∧ c ≠ ' ' ∧ c ≠ '\t')

/-- The integral-engine state in which leading-article recognition applies:
no group content has accumulated and all counters are at their initial
values (the sign flag and the bookkeeping strings are unconstrained). -/
def articleState (st : ParseIntState) : Prop :=
  st.groups = [] ∧ st.current_group = [] ∧ st.last_additive_value = [] ∧
  st.last_multiplicative_shift = 0 ∧
  st.last_group_total_multiplicative_shift = 4294967295 ∧
  st.current_group_total_multiplicative_shift = 0 ∧ st.last_term_multiplicative = false

instance placesOverlapDec (s t : List Char) :
    Decidable (∃ i, i < s.length ∧ i < t.length ∧ s.getD i '0' ≠ '0' ∧ t.getD i '0' ≠ '0') := by
  have h : (∃ i, i < s.length ∧ i < t.length ∧ s.getD i '0' ≠ '0' ∧ t.getD i '0' ≠ '0') ↔
      (∃ i ∈ List.range s.length, i < t.length ∧ s.getD i '0' ≠ '0' ∧ t.getD i '0' ≠ '0') := by
    simp [List.mem_range]
  exact decidable_of_iff _ h.symm

/-! Theorems. -/

/-- C8: `to_number` does raise the empty-input error on the empty string,
but `to_numeral` does not: its very first statement returns the empty
string for an empty input (numero.cpp lines 911-912), so the claim's
"both" is refuted. -/
theorem C8_counterexample :
    to_numeral default_options [] = .ok [] ∧
    to_numeral default_options [] ≠ .error .emptyNumeral := by
  exact ⟨rfl, by decide⟩

/-- C8 (amended): for every option set, `to_number` raises the empty-input
error on the empty string while `to_numeral` returns the empty string. -/
theorem C8_empty_input (conversion_options : conversion_options_t) :
    to_number conversion_options [] = .error .emptyNumeral ∧
    to_numeral conversion_options [] = .ok [] :=
  ⟨rfl, rfl⟩

/-- C8 witness: the amended statement at the default options. -/
theorem C8_empty_input_witness :
    to_number default_options [] = .error .emptyNumeral ∧
    to_numeral default_options [] = .ok [] :=
  C8_empty_input default_options

/-- C9: the input `1e9999999999` matches the number pattern (with an
exponent capture of ten digits), yet `is_number`, `to_numeral` and
`extract_number_parts` all propagate the `std::out_of_range` thrown by
`std::stoi` on that capture instead of classifying the input. -/
theorem C9_stoi_overflow :
    numberRegexMatch ',' '.' (str ("1e9999999999")) =
      some ⟨false, some (str ("1")), none, some (str ("9999999999"))⟩ ∧
    is_number default_options (str ("1e9999999999")) = .error .stoiOutOfRange ∧
    to_numeral default_options (str ("1e9999999999")) = .error .stoiOutOfRange ∧
    extract_number_parts default_options (str ("1e9999999999")) = .error .stoiOutOfRange :=
  ⟨rfl, rfl, rfl, rfl⟩

/-- `Except.map` never turns a success into an error. -/
theorem except_map_error_iff {ε α β : Type} (f : α → β) (x : Except ε α) (e : ε) :
    x.map f = .error e ↔ x = .error e := by
  cases x <;> simp [Except.map]

/-- `merge_rev` is commutative. -/
theorem merge_rev_comm (s : List Char) : ∀ t, merge_rev s t = merge_rev t s := by
  induction s with
  | nil => intro t; cases t <;> rfl
  | cons sc s ih =>
    intro t
    cases t with
    | nil => rfl
    | cons tc t =>
      simp only [merge_rev]
      by_cases hs : sc = '0'
      · by_cases ht : tc = '0'
        · simp [hs, ht, ih]
        · simp [hs, ht, ih]
      · by_cases ht : tc = '0'
        · simp [hs, ht, ih]
        · simp [hs, ht]

/-- `merge_rev` only ever fails with the overlap error. -/
theorem merge_rev_error_eq (s : List Char) :
    ∀ t e, merge_rev s t = .error e → e = .overlappingPlaces := by
  induction s with
  | nil => intro t e h; simp [merge_rev] at h
  | cons sc s ih =>
    intro t e h
    cases t with
    | nil => simp [merge_rev] at h
    | cons tc t =>
      simp only [merge_rev] at h
      split at h
      · cases h; rfl
      · rw [except_map_error_iff] at h
        exact ih t e h

/-- `merge_rev s t` fails exactly when some position carries a non-zero
digit in both lists. -/
theorem merge_rev_error_iff (s : List Char) :
    ∀ t, merge_rev s t = .error .overlappingPlaces ↔
      ∃ i, i < s.length ∧ i < t.length ∧ s.getD i '0' ≠ '0' ∧ t.getD i '0' ≠ '0' := by
  induction s with
  | nil =>
    intro t
    simp [merge_rev]
  | cons sc s ih =>
    intro t
    cases t with
    | nil => simp [merge_rev]
    | cons tc t =>
      simp only [merge_rev]
      constructor
      · intro h
        split at h
        · rename_i hb
          exact ⟨0, by simp, by simp, by simpa using hb.1, by simpa using hb.2⟩
        · rw [except_map_error_iff] at h
          obtain ⟨i, h1, h2, h3, h4⟩ := (ih t).1 h
          exact ⟨i + 1, by simpa using h1, by simpa using h2, by simpa using h3,
            by simpa using h4⟩
      · rintro ⟨i, h1, h2, h3, h4⟩
        split
        · rfl
        · rename_i hb
          rw [except_map_error_iff]
          cases i with
          | zero => exact absurd ⟨by simpa using h3, by simpa using h4⟩ hb
          | succ i =>
            exact (ih t).2 ⟨i, by simpa using h1, by simpa using h2,
              by simpa using h3, by simpa using h4⟩

/-- Characterization of a successful `merge_rev`: the result has the length
of the longer list and, at every position, the source digit wherever it is
non-zero and the target digit otherwise. -/
theorem merge_rev_ok (s : List Char) :
    ∀ t r, merge_rev s t = .ok r →
      r.length = max s.length t.length ∧
      ∀ i, r.getD i '0' = if s.getD i '0' ≠ '0' then s.getD i '0' else t.getD i '0' := by
  induction s with
  | nil =>
    intro t r h
    simp only [merge_rev] at h
    cases h
    refine ⟨by simp, fun i => ?_⟩
    simp
  | cons sc s ih =>
    intro t r h
    cases t with
    | nil =>
      simp only [merge_rev] at h
      cases h
      refine ⟨by simp, fun i => ?_⟩
      rcases eq_or_ne ((sc :: s).getD i '0') '0' with hz | hz
      · rw [if_neg (not_not_intro hz), hz]; rfl
      · rw [if_pos hz]
    | cons tc t =>
      simp only [merge_rev] at h
      split at h
      · cases h
      · rename_i hb
        cases hrec : merge_rev s t with
        | error e => rw [hrec] at h; cases h
        | ok r' =>
          rw [hrec] at h
          cases h
          obtain ⟨hlen, hdig⟩ := ih t r' hrec
          refine ⟨by simp [hlen, Nat.succ_max_succ], fun i => ?_⟩
          cases i with
          | zero =>
            by_cases hs : sc = '0'
            · simp [hs]
            · simp [hs]
          | succ i => simpa using hdig i

/-- C5: `merge_places` replaces an empty target by the source, is
commutative (even as a string equality, hence in value), fails exactly on a
right-aligned position where both digit strings are non-zero, and otherwise
yields the digit string of the longer operand's length whose right-aligned
digit at each position is the source digit when that is non-zero and the
target digit otherwise (so zeros always lose and a longer source widens the
target on the left). -/
theorem C5_merge_places_spec (source target : List Char) :
    merge_places source [] = .ok source ∧
    merge_places source target = merge_places target source ∧
    (merge_places source target = .error .overlappingPlaces ↔
      (∃ i, i < source.length ∧ i < target.length ∧
        source.reverse.getD i '0' ≠ '0' ∧ target.reverse.getD i '0' ≠ '0')) ∧
    ((¬ ∃ i, i < source.length ∧ i < target.length ∧
        source.reverse.getD i '0' ≠ '0' ∧ target.reverse.getD i '0' ≠ '0') →
      ∃ merged, merge_places source target = .ok merged ∧
        merged.length = max source.length target.length ∧
        ∀ i, merged.reverse.getD i '0' =
          if source.reverse.getD i '0' ≠ '0' then source.reverse.getD i '0'
          else target.reverse.getD i '0') := by
  have hcomm : merge_places source target = merge_places target source := by
    by_cases hs : source = []
    · by_cases ht : target = []
      · rw [hs, ht]
      · subst hs
        simp [merge_places, ht, merge_rev_comm, Except.map]
        cases target <;> simp_all [merge_rev, Except.map]
    · by_cases ht : target = []
      · subst ht
        simp [merge_places, hs, Except.map]
        cases source <;> simp_all [merge_rev, Except.map]
      · simp [merge_places, hs, ht, merge_rev_comm source.reverse]
  have herr : merge_places source target = .error .overlappingPlaces ↔
      (∃ i, i < source.length ∧ i < target.length ∧
        source.reverse.getD i '0' ≠ '0' ∧ target.reverse.getD i '0' ≠ '0') := by
    by_cases ht : target = []
    · subst ht
      simp [merge_places]
    · rw [merge_places, if_neg ht, except_map_error_iff, merge_rev_error_iff]
      constructor
      · rintro ⟨i, h1, h2, h3, h4⟩
        exact ⟨i, by simpa using h1, by simpa using h2, h3, h4⟩
      · rintro ⟨i, h1, h2, h3, h4⟩
        exact ⟨i, by simpa using h1, by simpa using h2, h3, h4⟩
  refine ⟨by simp [merge_places], hcomm, herr, fun hno => ?_⟩
  by_cases ht : target = []
  · subst ht
    refine ⟨source, by simp [merge_places], by simp, fun i => ?_⟩
    rcases eq_or_ne (source.reverse.getD i '0') '0' with hz | hz
    · rw [if_neg (not_not_intro hz), hz]; rfl
    · rw [if_pos hz]
  · cases hrec : merge_rev source.reverse target.reverse with
    | error e =>
      have he := merge_rev_error_eq source.reverse target.reverse e hrec
      subst he
      have : merge_places source target = .error .overlappingPlaces := by
        rw [merge_places, if_neg ht, hrec]; rfl
      exact absurd (herr.1 this) hno
    | ok r =>
      obtain ⟨hlen, hdig⟩ := merge_rev_ok source.reverse target.reverse r hrec
      refine ⟨r.reverse, ?_, ?_, fun i => ?_⟩
      · rw [merge_places, if_neg ht, hrec]; rfl
      · simpa using hlen
      · simpa using hdig i

/-- C5 witness: merging `23` into `100` succeeds with `123` (the three zero
digits all lose, and the result is as long as the longer operand). -/
theorem C5_merge_places_spec_witness :
    (¬ ∃ i, i < (str ("23")).length ∧ i < (str ("100")).length ∧
      (str ("23")).reverse.getD i '0' ≠ '0' ∧ (str ("100")).reverse.getD i '0' ≠ '0') ∧
    ∃ merged, merge_places (str ("23")) (str ("100")) = .ok merged ∧
      merged.length = max (str ("23")).length (str ("100")).length ∧
      ∀ i, merged.reverse.getD i '0' =
        if (str ("23")).reverse.getD i '0' ≠ '0' then (str ("23")).reverse.getD i '0'
        else (str ("100")).reverse.getD i '0' :=
  ⟨by decide, (C5_merge_places_spec (str ("23")) (str ("100"))).2.2.2 (by decide)⟩

/-- C6: when a non-zero exponent is resolved, a decimal-point position at or
beyond the end of the concatenated digits appends that many zeros and
empties the fractional part; a negative position prepends zeros and leaves
`0` (under `force_leading_zero`) or nothing as the integral part; any other
position splits the concatenated digits there. -/
theorem C6_exponent_resolution (force_leading_zero : Bool) (I F : List Char) (e : Int)
    (he : e ≠ 0) :
    (((I.length : Int) + e ≥ ((I ++ F).length : Int) →
      resolve_exponent_step force_leading_zero I F e =
        (I ++ F ++ List.replicate (((I.length : Int) + e) - ((I ++ F).length : Int)).toNat '0',
          [])) ∧
    ((I.length : Int) + e < 0 →
      resolve_exponent_step force_leading_zero I F e =
        ((if force_leading_zero then str ("0") else []),
          List.replicate (-((I.length : Int) + e)).toNat '0' ++ (I ++ F))) ∧
    (0 ≤ (I.length : Int) + e → (I.length : Int) + e < ((I ++ F).length : Int) →
      resolve_exponent_step force_leading_zero I F e =
        ((I ++ F).take ((I.length : Int) + e).toNat,
          (I ++ F).drop ((I.length : Int) + e).toNat))) := by
  have hlen : ((I ++ F).length : Int) = (I.length : Int) + (F.length : Int) := by
    push_cast [List.length_append]; ring
  refine ⟨fun h => ?_, fun h => ?_, fun h1 h2 => ?_⟩
  · simp only [resolve_exponent_step]
    by_cases hoff : (I.length : Int) + e - ((I.length : Int) + (F.length : Int)) > 0
    · rw [if_pos hoff]
      have hx : ((I.length : Int) + e - ((I.length : Int) + (F.length : Int))).toNat =
          (((I.length : Int) + e) - ((I ++ F).length : Int)).toNat := by omega
      rw [hx]
    · rw [if_neg hoff, if_neg (show ¬ ((I.length : Int) + e < 0) by omega)]
      have hdp : (((I.length : Int) + e)).toNat = (I ++ F).length := by omega
      rw [hdp, List.take_length, List.drop_length]
      have hx : (((I.length : Int) + e) - ((I ++ F).length : Int)).toNat = 0 := by omega
      rw [hx]
      simp
  · simp only [resolve_exponent_step]
    rw [if_neg (show ¬ ((I.length : Int) + e - ((I.length : Int) + (F.length : Int)) > 0) by
      omega), if_pos h]
  · simp only [resolve_exponent_step]
    rw [if_neg (show ¬ ((I.length : Int) + e - ((I.length : Int) + (F.length : Int)) > 0) by
      omega), if_neg (show ¬ ((I.length : Int) + e < 0) by omega)]

/-- C6 witness: resolving `3.85e9` moves the point past the digits, appends
seven zeros and empties the fractional part. -/
theorem C6_exponent_resolution_witness :
    ((9 : Int) ≠ 0) ∧
    resolve_exponent_step true (str ("3")) (str ("85")) 9 = (str ("3850000000"), []) :=
  ⟨by decide,
    ((C6_exponent_resolution true (str ("3")) (str ("85")) 9 (by decide)).1
      (by decide)).trans (by decide)⟩

/-- Every factor between 1 and 100 resolves to a Latin root, either directly
or as a prefix of `factor % 10` plus a root of `factor - factor % 10`. -/
theorem latin_lookup_total : ∀ f < 101, 1 ≤ f →
    (lookupL factor_to_root f).isSome = true ∨
    ((lookupL value_to_prefix (f % 10)).isSome = true ∧
     (lookupL factor_to_root (f - f % 10)).isSome = true) := by decide

/-- For factors in the supported range the root lookup chain succeeds and
produces exactly the spec's `latin_word`. -/
theorem magnitude_root_word_eq (factor : Nat) (suffix : List Char) (h1 : 1 ≤ factor)
    (h2 : factor ≤ 100) :
    magnitude_root_word factor suffix = .ok (latin_word factor ++ suffix) := by
  unfold magnitude_root_word
  cases hq : lookupL factor_to_root factor with
  | some root => simp [latin_word, hq]
  | none =>
    rcases latin_lookup_total factor (by omega) h1 with hl | ⟨hp, hr⟩
    · rw [hq] at hl; simp at hl
    · obtain ⟨pre, hpre⟩ := Option.isSome_iff_exists.1 hp
      obtain ⟨root, hroot⟩ := Option.isSome_iff_exists.1 hr
      simp [latin_word, hq, hpre, hroot]

/-- `magnitude_word` in short scale, unfolded. -/
theorem magnitude_word_short (place : Nat) :
    magnitude_word .short_scale place =
      if (place - 3) / 3 > 100 then .error .unsupportedMagnitude
      else magnitude_root_word ((place - 3) / 3) (str ("illion ")) := rfl

/-- `magnitude_word` in long scale, unfolded. -/
theorem magnitude_word_long (place : Nat) :
    magnitude_word .long_scale place =
      if place / 6 > 100 then .error .unsupportedMagnitude
      else magnitude_root_word (place / 6)
        (if place % 6 = 3 then str ("illiard ") else str ("illion ")) := rfl

/-- C3: in the integral emission of `to_numeral`, a non-zero group ending at
position 3 emits "thousand"; one ending at position `p ≥ 6` emits the
magnitude word for the factor `(p-3)/3` (short scale, always suffixed
"illion") or `p/6` (long scale, suffixed "illiard" exactly when
`p % 6 = 3`), where a factor without a direct root entry is rendered as
`prefix(f % 10) ++ root(f - f % 10) ++ suffix`; a factor above 100 is the
unsupported-magnitude error. -/
theorem C3_magnitude_emission (naming_system : naming_system_t) (place : Nat) (d : Char) :
    group_end_emission naming_system true d 3 = .ok (str ("thousand ")) ∧
    (6 ≤ place → place % 3 = 0 →
      group_end_emission naming_system true d place = magnitude_word naming_system place) ∧
    (naming_system = .short_scale → 6 ≤ place → place % 3 = 0 →
      ((place - 3) / 3 ≤ 100 →
        magnitude_word naming_system place =
          .ok (latin_word ((place - 3) / 3) ++ str ("illion "))) ∧
      (100 < (place - 3) / 3 →
        magnitude_word naming_system place = .error .unsupportedMagnitude)) ∧
    (naming_system = .long_scale → 6 ≤ place → place % 3 = 0 →
      (place / 6 ≤ 100 →
        magnitude_word naming_system place =
          .ok (latin_word (place / 6) ++
            (if place % 6 = 3 then str ("illiard ") else str ("illion ")))) ∧
      (100 < place / 6 →
        magnitude_word naming_system place = .error .unsupportedMagnitude)) := by
  refine ⟨by simp [group_end_emission], fun h6 h3 => by simp [group_end_emission, h6, h3],
    fun hns h6 h3 => ?_, fun hns h6 h3 => ?_⟩
  · subst hns
    refine ⟨fun hf => ?_, fun hf => ?_⟩
    · rw [magnitude_word_short, if_neg (by omega),
        magnitude_root_word_eq _ _ (by omega) hf]
    · rw [magnitude_word_short, if_pos (by omega)]
  · subst hns
    refine ⟨fun hf => ?_, fun hf => ?_⟩
    · rw [magnitude_word_long, if_neg (by omega),
        magnitude_root_word_eq _ _ (by omega) hf]
    · rw [magnitude_word_long, if_pos (by omega)]

/-- C3 witness: position 72 in short scale emits `trevigintillion` (a
composite root), position 9 in long scale emits `milliard`, and position 306
in short scale (factor 101) is the unsupported-magnitude error. -/
theorem C3_magnitude_emission_witness :
    magnitude_word .short_scale 72 = .ok (str ("trevigintillion ")) ∧
    magnitude_word .long_scale 9 = .ok (str ("milliard ")) ∧
    magnitude_word .short_scale 306 = .error .unsupportedMagnitude := by
  have h1 := ((C3_magnitude_emission .short_scale 72 '0').2.2.1 rfl (by decide) (by decide)).1
    (by decide)
  have h2 := ((C3_magnitude_emission .long_scale 9 '0').2.2.2 rfl (by decide) (by decide)).1
    (by decide)
  have h3 := ((C3_magnitude_emission .short_scale 306 '0').2.2.1 rfl (by decide) (by decide)).2
    (by decide)
  exact ⟨h1.trans (by decide), h2.trans (by decide), h3⟩

/-- C7: refuted as stated — a fractional token that is itself a digit run is
passed through verbatim by `find_additive_value` (its numeric path ignores
`max_digits`), so the single token `12` contributes two digits to the
fractional part instead of "exactly one digit per input token". -/
theorem C7_counterexample :
    splitSeps isTokSep (str ("12")) = [str ("12")] ∧
    parse_fractional_number (str ("12")) default_options = .ok (str ("12")) ∧
    (str ("12")).length ≠ 1 ∧
    to_number default_options (str ("zero point 12")) = .ok (str ("0.12")) :=
  ⟨rfl, rfl, by decide, rfl⟩

/-- Every base-term value in the vocabulary is a nonempty digit string. -/
theorem value_to_term_values_nonempty : ∀ p ∈ value_to_term, 1 ≤ p.1.length := by decide

/-- C7 (amended): in the fractional engine every token is resolved by
`find_additive_value` with `max_digits = 1`, so every token that is a word
(no digit characters) resolves to exactly one digit — in particular a base
term wider than one digit, such as `ten`, is rejected — while a token
containing digits is passed through verbatim and may contribute several
digits. -/
theorem C7_fractional_single_digit :
    (∀ term value, term.any isDigitCh = false →
      find_additive_value term 1 true = .ok value → value.length = 1) ∧
    find_additive_value (str ("ten")) 1 true = .error (.notAllowedHere (str ("ten"))) ∧
    (∀ term, term.any isDigitCh = true → find_additive_value term 1 true = .ok term) ∧
    parse_fractional_number (str ("zero six two five")) default_options = .ok (str ("0625")) := by
  refine ⟨fun term value hdig hok => ?_, rfl, fun term hdig => ?_, rfl⟩
  · rw [find_additive_value, if_neg (by simp [hdig])] at hok
    cases hq : lookupSR value_to_term term with
    | none => rw [hq] at hok; cases hok
    | some v =>
      rw [hq] at hok
      dsimp only at hok
      by_cases hlen : v.length > 1
      · rw [if_pos hlen] at hok; cases hok
      · rw [if_neg hlen] at hok
        cases hok
        have hmem : ∃ p ∈ value_to_term, p.1 = value := by
          obtain ⟨q, hq1⟩ : ∃ q, value_to_term.find? (fun p => decide (p.2 = term)) = some q := by
            unfold lookupSR at hq
            cases hfind : value_to_term.find? (fun p => decide (p.2 = term)) with
            | none => rw [hfind] at hq; cases hq
            | some q => exact ⟨q, rfl⟩
          refine ⟨q, List.mem_of_find?_eq_some hq1, ?_⟩
          unfold lookupSR at hq
          rw [hq1] at hq
          cases hq
          rfl
        obtain ⟨p, hp, hpv⟩ := hmem
        have h1 := value_to_term_values_nonempty p hp
        rw [hpv] at h1
        omega
  · rw [find_additive_value, if_pos (by simp [hdig])]
    simp

/-- C7 witness: the word `six` resolves to the single digit `6`. -/
theorem C7_fractional_single_digit_witness :
    ((str ("six")).any isDigitCh = false) ∧
    (find_additive_value (str ("six")) 1 true = .ok (str ("6"))) ∧
    (str ("6")).length = 1 :=
  ⟨by decide, by decide,
    C7_fractional_single_digit.1 (str ("six")) (str ("6")) (by decide) (by decide)⟩

/-- C4: whenever a sub-numeral is closed — by an additive term that follows
a multiplicative term of shift at least 3, or at the end of the input — its
accumulated total multiplicative shift is compared against the previously
completed group's total: equality raises the duplicate-magnitude error and a
strictly greater total raises the out-of-order-magnitude error; in
particular `six thousand fourty-four million` raises the latter. -/
theorem C4_group_close_checks (conversion_options : conversion_options_t)
    (st : ParseIntState) (term v : List Char)
    (ha : term ≠ str ("a")) (hn : term ≠ str ("negative")) (hm : term ≠ str ("minus"))
    (hadd : find_additive_value term 3 (decide (st.groups = [] ∧ st.current_group = [])) = .ok v)
    (hlt : st.last_term_multiplicative = true) (hsh : 3 ≤ st.last_multiplicative_shift) :
    (st.current_group_total_multiplicative_shift = st.last_group_total_multiplicative_shift →
      parse_int_step conversion_options st term = .error .duplicateMagnitude) ∧
    (st.last_group_total_multiplicative_shift < st.current_group_total_multiplicative_shift →
      parse_int_step conversion_options st term = .error .outOfOrderMagnitude) ∧
    (∀ st2 : ParseIntState, ¬ (st2.groups = [] ∧ st2.current_group = [] ∧ st2.negative = true) →
      (st2.current_group_total_multiplicative_shift =
          st2.last_group_total_multiplicative_shift →
        parse_int_finish conversion_options st2 = .error .duplicateMagnitude) ∧
      (st2.last_group_total_multiplicative_shift <
          st2.current_group_total_multiplicative_shift →
        parse_int_finish conversion_options st2 = .error .outOfOrderMagnitude)) ∧
    to_number default_options (str ("six thousand fourty-four million")) =
      .error .outOfOrderMagnitude := by
  refine ⟨?_, ?_, fun st2 hne => ⟨fun heq => ?_, fun hgt => ?_⟩, rfl⟩
  · intro heq
    by_cases hlead : st.groups = [] ∧ st.current_group = []
    · simp only [parse_int_step, if_pos hlead]
      rw [if_neg (fun hc => ha hc.2), if_neg (fun hc => hc.2.elim hn hm)]
      rw [hadd]
      simp [hlt, hsh, heq]
      rfl
    · simp only [parse_int_step, if_neg hlead]
      rw [if_neg (fun hc => ha hc.2), if_neg (fun hc => hc.2.elim hn hm)]
      rw [hadd]
      simp [hlt, hsh, heq]
      rfl
  · intro hgt
    by_cases hlead : st.groups = [] ∧ st.current_group = []
    · simp only [parse_int_step, if_pos hlead]
      rw [if_neg (fun hc => ha hc.2), if_neg (fun hc => hc.2.elim hn hm)]
      rw [hadd]
      simp [hlt, hsh, ne_of_gt hgt, hgt]
      rfl
    · simp only [parse_int_step, if_neg hlead]
      rw [if_neg (fun hc => ha hc.2), if_neg (fun hc => hc.2.elim hn hm)]
      rw [hadd]
      simp [hlt, hsh, ne_of_gt hgt, hgt]
      rfl
  · rw [parse_int_finish, if_neg hne, if_pos heq]
  · rw [parse_int_finish, if_neg hne, if_neg (fun hc => (ne_of_gt hgt) hc), if_pos hgt]

/-- C4 witness: closing a `twenty thousand` group after a `six thousand`
group (equal totals) is the duplicate-magnitude error, and ending the input
on a `fourty-four million` group after a `six thousand` group (greater
total) is the out-of-order-magnitude error. -/
theorem C4_group_close_checks_witness :
    parse_int_step default_options
      ⟨false, [str ("6000")], str ("20000"), str ("thousand"), str ("six thousand"),
        str ("twenty thousand"), [], 3, 3, 3, true⟩ (str ("ten")) =
      .error .duplicateMagnitude ∧
    parse_int_finish default_options
      ⟨false, [str ("6000")], str ("44000000"), str ("million"), str ("six thousand"),
        str ("fourty-four million"), [], 6, 3, 6, true⟩ =
      .error .outOfOrderMagnitude := by
  have h := C4_group_close_checks default_options
    ⟨false, [str ("6000")], str ("20000"), str ("thousand"), str ("six thousand"),
      str ("twenty thousand"), [], 3, 3, 3, true⟩ (str ("ten")) (str ("10"))
    (by decide) (by decide) (by decide) (by decide) rfl (by decide)
  exact ⟨h.1 rfl, (h.2.2.1
    ⟨false, [str ("6000")], str ("44000000"), str ("million"), str ("six thousand"),
      str ("fourty-four million"), [], 6, 3, 6, true⟩ (by decide)).2 (by decide)⟩

/-- `joinWords` of at least two words starts with the first word and a space. -/
theorem joinWords_cons₂ (w : List Char) (ws : List (List Char)) (h : ws ≠ []) :
    joinWords (w :: ws) = w ++ ' ' :: joinWords ws := by
  cases ws with
  | nil => exact absurd rfl h
  | cons w2 ws2 => rfl

/-- Every character of a `joinWords` image is a space or a character of one
of the words. -/
theorem mem_joinWords (c : Char) : ∀ ws : List (List Char),
    c ∈ joinWords ws → c = ' ' ∨ ∃ w ∈ ws, c ∈ w := by
  intro ws
  induction ws with
  | nil => intro h; simp [joinWords] at h
  | cons w ws ih =>
    intro h
    cases hws : ws with
    | nil =>
      subst hws
      exact Or.inr ⟨w, by simp, h⟩
    | cons w2 ws2 =>
      rw [hws] at h ih
      rw [joinWords_cons₂ w _ (by simp)] at h
      rcases List.mem_append.1 h with h1 | h1
      · exact Or.inr ⟨w, by simp, h1⟩
      · rcases List.mem_cons.1 h1 with h2 | h2
        · exact Or.inl h2
        · rcases ih h2 with h3 | ⟨w3, hw3, hc3⟩
          · exact Or.inl h3
          · exact Or.inr ⟨w3, by simp [hw3], hc3⟩

/-- `splitGo` consumes a separator-free word into the current token. -/
theorem splitGo_word (isSep : Char → Bool) (w : List Char)
    (hw : ∀ c ∈ w, isSep c = false) :
    ∀ rest cur, splitGo isSep (w ++ rest) cur true = splitGo isSep rest (w.reverse ++ cur) true := by
  induction w with
  | nil => intro rest cur; simp
  | cons c w ih =>
    intro rest cur
    have hc : isSep c = false := hw c (by simp)
    have hstep : splitGo isSep ((c :: w) ++ rest) cur true =
        splitGo isSep (w ++ rest) (c :: cur) true := by
      simp [splitGo, hc]
    rw [hstep, ih (fun d hd => hw d (by simp [hd])) rest (c :: cur)]
    simp

/-- `splitGo` on the empty remainder closes the open token. -/
theorem splitGo_nil (isSep : Char → Bool) (cur : List Char) :
    splitGo isSep [] cur true = [cur.reverse] := rfl

/-- `splitGo` at a separator emits the open token. -/
theorem splitGo_sep (isSep : Char → Bool) (c : Char) (hc : isSep c = true)
    (rest cur : List Char) :
    splitGo isSep (c :: rest) cur true = cur.reverse :: splitGo isSep rest [] false := by
  simp [splitGo, hc]

/-- Outside a token, a non-separator head reopens a token just as inside one. -/
theorem splitGo_reopen (isSep : Char → Bool) (c : Char) (hc : isSep c = false)
    (rest : List Char) :
    splitGo isSep (c :: rest) [] false = splitGo isSep (c :: rest) [] true := by
  simp [splitGo, hc]

/-- `splitSeps` on a nonempty input runs `splitGo` with an open empty token. -/
theorem splitSeps_ne (isSep : Char → Bool) (cs : List Char) (h : cs ≠ []) :
    splitSeps isSep cs = splitGo isSep cs [] true := by
  cases cs with
  | nil => exact absurd rfl h
  | cons c rest => rfl

/-- Tokenizing a space-joined sequence of nonempty separator-free words
recovers exactly those words. -/
theorem splitSeps_joinWords (isSep : Char → Bool) (hsp : isSep ' ' = true) :
    ∀ ws : List (List Char), ws ≠ [] →
      (∀ w ∈ ws, w ≠ [] ∧ ∀ c ∈ w, isSep c = false) →
      splitSeps isSep (joinWords ws) = ws := by
  intro ws
  induction ws with
  | nil => intro h; exact absurd rfl h
  | cons w ws ih =>
    intro _ hgood
    obtain ⟨hw1, hw2⟩ := hgood w (by simp)
    cases ws with
    | nil =>
      show splitSeps isSep w = [w]
      rw [splitSeps_ne isSep w hw1]
      have := splitGo_word isSep w hw2 [] []
      rw [List.append_nil] at this
      rw [this, splitGo_nil]
      simp
    | cons w2 ws2 =>
      obtain ⟨hw21, hw22⟩ := hgood w2 (by simp)
      obtain ⟨c2, cr2, hw2c⟩ : ∃ c cr, w2 = c :: cr := by
        cases w2 with
        | nil => exact absurd rfl hw21
        | cons a b => exact ⟨a, b, rfl⟩
      have hc2 : isSep c2 = false := hw22 c2 (by simp [hw2c])
      obtain ⟨t, hjc⟩ : ∃ t, joinWords (w2 :: ws2) = c2 :: t := by
        cases ws2 with
        | nil => exact ⟨cr2, by simp [joinWords, hw2c]⟩
        | cons w3 ws3 =>
          refine ⟨cr2 ++ ' ' :: joinWords (w3 :: ws3), ?_⟩
          rw [joinWords_cons₂ _ _ (by simp), hw2c]
          simp
      rw [joinWords_cons₂ w (w2 :: ws2) (by simp)]
      rw [splitSeps_ne isSep _ (by simp [hw1])]
      rw [splitGo_word isSep w hw2, List.append_nil, splitGo_sep isSep ' ' hsp]
      rw [List.reverse_reverse]
      rw [hjc, splitGo_reopen isSep c2 hc2, ← hjc]
      rw [← splitSeps_ne isSep _ (by rw [hjc]; simp)]
      rw [ih (by simp) (fun w' hw' => hgood w' (by simp [hw']))]

/-- Without an occurrence of `p`, the point-splitter returns the input whole. -/
theorem pointSplitGo_nop (cs : List Char) (cur : List Char) (h : 'p' ∉ cs) :
    pointSplitGo cs cur = [cur.reverse ++ cs] := by
  induction cs, cur using pointSplitGo.induct with
  | case1 r cur ih => exact absurd (by simp) h
  | case2 r cur ih => exact absurd (by simp) h
  | case3 c rest cur g1 g2 ih =>
    rw [pointSplitGo.eq_3 cur c rest g1 g2]
    rw [ih (fun hm => h (by simp [hm]))]
    simp
  | case4 cur => simp [pointSplitGo]

/-- Inside a lowercase word the numeral scanner stays in the word state. -/
theorem numeral_scan_in_word (w : List Char) (hw : ∀ c ∈ w, isLowerCh c = true) :
    ∀ cs, numeral_scan (w ++ cs) 1 = numeral_scan cs 1 := by
  induction w with
  | nil => intro cs; rfl
  | cons c w ih =>
    intro cs
    have hc : isLowerCh c = true := hw c (by simp)
    show numeral_scan (c :: (w ++ cs)) 1 = _
    rw [show numeral_scan (c :: (w ++ cs)) 1 = numeral_scan (w ++ cs) 1 by
      simp [numeral_scan, hc]]
    exact ih (fun d hd => hw d (by simp [hd])) cs

/-- From the token-start or separator state, a nonempty lowercase word moves
the numeral scanner into the word state. -/
theorem numeral_scan_word (w : List Char) (hne : w ≠ [])
    (hw : ∀ c ∈ w, isLowerCh c = true ∧ c ≠ ' ' ∧ c ≠ '\t') (s : Nat) (hs : s = 0 ∨ s = 3) :
    ∀ cs, numeral_scan (w ++ cs) s = numeral_scan cs 1 := by
  intro cs
  cases w with
  | nil => exact absurd rfl hne
  | cons c w =>
    obtain ⟨h1, h2, h3⟩ := hw c (by simp)
    have hstep : numeral_scan (c :: (w ++ cs)) s = numeral_scan (w ++ cs) 1 := by
      rcases hs with rfl | rfl
      · simp [numeral_scan, h1]
      · simp [numeral_scan, h1, h2, h3]
    show numeral_scan (c :: (w ++ cs)) s = _
    rw [hstep]
    exact numeral_scan_in_word w (fun d hd => (hw d (by simp [hd])).1) cs

/-- A space after a word moves the numeral scanner to the separator state. -/
theorem numeral_scan_space (cs : List Char) :
    numeral_scan (' ' :: cs) 1 = numeral_scan cs 3 := rfl

/-- A space-joined sequence of nonempty lowercase words is accepted by the
numeral scanner from the token-start or separator state. -/
theorem numeral_scan_joinWords : ∀ ws : List (List Char), ws ≠ [] →
    (∀ w ∈ ws, plainWord w) → ∀ s, (s = 0 ∨ s = 3) →
    numeral_scan (joinWords ws) s = true := by
  intro ws
  induction ws with
  | nil => intro h; exact absurd rfl h
  | cons w ws ih =>
    intro _ hgood s hs
    obtain ⟨hw1, hw2⟩ := hgood w (by simp)
    cases ws with
    | nil =>
      show numeral_scan w s = true
      have := numeral_scan_word w hw1 (fun c hc => ⟨(hw2 c hc).1, (hw2 c hc).2.2.1,
        (hw2 c hc).2.2.2⟩) s hs []
      rw [List.append_nil] at this
      rw [this]
      rfl
    | cons w2 ws2 =>
      rw [joinWords_cons₂ w (w2 :: ws2) (by simp)]
      rw [numeral_scan_word w hw1 (fun c hc => ⟨(hw2 c hc).1, (hw2 c hc).2.2.1,
        (hw2 c hc).2.2.2⟩) s hs]
      rw [numeral_scan_space]
      exact ih (by simp) (fun w' hw' => hgood w' (by simp [hw'])) 3 (Or.inr rfl)

/-- Stepping the integral engine on `minus` or `negative` from an
article-recognition state just records the sign and keeps the state. -/
theorem parse_int_step_sign (conversion_options : conversion_options_t)
    (st : ParseIntState) (h : articleState st) (w : List Char)
    (hw : w = str ("minus") ∨ w = str ("negative")) :
    ∃ st2, parse_int_step conversion_options st w = .ok st2 ∧ articleState st2 ∧
      st2.negative = true := by
  obtain ⟨h1, h2, h3, h4, h5, h6, h7⟩ := h
  obtain ⟨ne, gr, cg, lt, ls, cs, la, lm, lg, ct, lb⟩ := st
  simp only at h1 h2 h3 h4 h5 h6 h7
  subst h1 h2 h3 h4 h5 h6 h7
  rcases hw with rfl | rfl
  · exact ⟨_, rfl, by constructor <;> simp [articleState], rfl⟩
  · exact ⟨_, rfl, by constructor <;> simp [articleState], rfl⟩

/-- Folding any sequence of sign words keeps the article-recognition state
(and a sign once set). -/
theorem parse_int_fold_signs (conversion_options : conversion_options_t) :
    ∀ ws : List (List Char), (∀ w ∈ ws, w = str ("minus") ∨ w = str ("negative")) →
    ∀ st : ParseIntState, articleState st → st.negative = true →
    ∃ st2, ws.foldlM (parse_int_step conversion_options) st = .ok st2 ∧
      articleState st2 ∧ st2.negative = true := by
  intro ws
  induction ws with
  | nil => intro _ st h hn; exact ⟨st, rfl, h, hn⟩
  | cons w ws ih =>
    intro hws st h hn
    obtain ⟨st2, hstep, h2, hn2⟩ := parse_int_step_sign conversion_options st h w
      (hws w (by simp))
    obtain ⟨st3, hfold, h3, hn3⟩ := ih (fun w' hw' => hws w' (by simp [hw'])) st2 h2 hn2
    exact ⟨st3, by rw [List.foldlM_cons, hstep]; simpa using hfold, h3, hn3⟩

/-- From a signed article-recognition state, the token `one` followed by the
end of input produces `-1`. -/
theorem parse_int_one_finish (st : ParseIntState) (h : articleState st)
    (hn : st.negative = true) :
    (([str ("one")].foldlM (parse_int_step default_options) st).bind
      (parse_int_finish default_options)) = .ok (str ("-1")) := by
  obtain ⟨h1, h2, h3, h4, h5, h6, h7⟩ := h
  obtain ⟨ne, gr, cg, lt, ls, cs, la, lm, lg, ct, lb⟩ := st
  simp only at h1 h2 h3 h4 h5 h6 h7 hn
  subst h1 h2 h3 h4 h5 h6 h7 hn
  rfl

/-- C10: leading-article recognition applies while no group content has
accumulated, so any nonempty sequence of leading sign words (`minus` or
`negative`, in any mixture) before `one` is absorbed, each one merely
setting the sign flag — the sign never flips and no error is raised; in
particular both `minus minus one` and `negative minus one` parse to `-1`. -/
theorem C10_leading_sign_words :
    (∀ ws : List (List Char), ws ≠ [] →
      (∀ w ∈ ws, w = str ("minus") ∨ w = str ("negative")) →
      to_number default_options (joinWords (ws ++ [str ("one")])) = .ok (str ("-1"))) ∧
    to_number default_options (str ("minus minus one")) = .ok (str ("-1")) ∧
    to_number default_options (str ("negative minus one")) = .ok (str ("-1")) := by
  refine ⟨fun ws hne hws => ?_, rfl, rfl⟩
  have hplain : ∀ w ∈ ws ++ [str ("one")], plainWord w := by
    intro w hw
    rcases List.mem_append.1 hw with h | h
    · rcases hws w h with rfl | rfl
      · exact ⟨by decide, by decide⟩
      · exact ⟨by decide, by decide⟩
    · simp at h
      subst h
      exact ⟨by decide, by decide⟩
  obtain ⟨w0, ws', rfl⟩ : ∃ w0 ws', ws = w0 :: ws' := by
    cases ws with
    | nil => exact absurd rfl hne
    | cons a b => exact ⟨a, b, rfl⟩
  have hJ : joinWords ((w0 :: ws') ++ [str ("one")]) =
      w0 ++ ' ' :: joinWords (ws' ++ [str ("one")]) := by
    show joinWords (w0 :: (ws' ++ [str ("one")])) = _
    exact joinWords_cons₂ w0 _ (by simp)
  have hsp : ' ' ∈ joinWords ((w0 :: ws') ++ [str ("one")]) := by
    rw [hJ]
    simp
  have hJne : joinWords ((w0 :: ws') ++ [str ("one")]) ≠ [] := by
    rw [hJ]
    simp
  have hscan := numeral_scan_joinWords ((w0 :: ws') ++ [str ("one")]) (by simp) hplain 0
    (Or.inl rfl)
  have hnum : is_numeral (joinWords ((w0 :: ws') ++ [str ("one")])) = true := by
    have hne1 : joinWords ((w0 :: ws') ++ [str ("one")]) ≠ str ("negative") := by
      intro heq
      rw [heq] at hsp
      exact absurd hsp (by decide)
    have hne2 : joinWords ((w0 :: ws') ++ [str ("one")]) ≠ str ("minus") := by
      intro heq
      rw [heq] at hsp
      exact absurd hsp (by decide)
    simp only [is_numeral, Bool.and_eq_true, decide_eq_true_eq]
    exact ⟨⟨hscan, hne1⟩, hne2⟩
  have hnop : 'p' ∉ joinWords ((w0 :: ws') ++ [str ("one")]) := by
    intro hmem
    rcases mem_joinWords 'p' _ hmem with h | ⟨w, hwmem, hpc⟩
    · exact absurd h (by decide)
    · rcases List.mem_append.1 hwmem with h | h
      · rcases hws w h with rfl | rfl
        · exact absurd hpc (by decide)
        · exact absurd hpc (by decide)
      · simp at h
        subst h
        exact absurd hpc (by decide)
  have hpoint : pointSplit (joinWords ((w0 :: ws') ++ [str ("one")])) =
      [joinWords ((w0 :: ws') ++ [str ("one")])] := by
    rw [pointSplit, pointSplitGo_nop _ [] hnop]
    simp
  have hsplit : splitSeps isTokSep (joinWords ((w0 :: ws') ++ [str ("one")])) =
      (w0 :: ws') ++ [str ("one")] :=
    splitSeps_joinWords isTokSep (by decide) _ (by simp)
      (fun w hw => ⟨(hplain w hw).1, fun c hc => ((hplain w hw).2 c hc).2.1⟩)
  obtain ⟨st1, hst1, ha1, hn1⟩ := parse_int_step_sign default_options {}
    ⟨rfl, rfl, rfl, rfl, rfl, rfl, rfl⟩ w0 (hws w0 (by simp))
  obtain ⟨st2, hst2, ha2, hn2⟩ := parse_int_fold_signs default_options ws'
    (fun w hw => hws w (by simp [hw])) st1 ha1 hn1
  have hone := parse_int_one_finish st2 ha2 hn2
  have hchain : ((w0 :: ws') ++ [str ("one")]).foldlM
      (parse_int_step default_options) ({} : ParseIntState) =
      [str ("one")].foldlM (parse_int_step default_options) st2 := by
    rw [List.foldlM_append (m := Except num_error) _ _ (w0 :: ws') [str ("one")]]
    rw [List.foldlM_cons, hst1]
    show (ws'.foldlM (parse_int_step default_options) st1).bind _ = _
    rw [hst2]
    rfl
  have hint : parse_integral_number (joinWords ((w0 :: ws') ++ [str ("one")]))
      default_options = .ok (str ("-1")) := by
    rw [parse_integral_number, if_neg hJne, hsplit, hchain]
    exact hone
  rw [to_number, if_neg hJne, if_neg (not_not_intro hnum), hpoint]
  exact hint

/-- C10 witness: the mixed sequence `minus negative one` parses to `-1`. -/
theorem C10_leading_sign_words_witness :
    to_number default_options (str ("minus negative one")) = .ok (str ("-1")) := by
  have h := C10_leading_sign_words.1 [str ("minus"), str ("negative")] (by decide) (by decide)
  rw [show joinWords ([str ("minus"), str ("negative")] ++ [str ("one")]) =
    str ("minus negative one") from rfl] at h
  exact h

/-- `takeWhile` swallows a prefix all of whose characters satisfy the test. -/
theorem takeWhile_append_all {p : Char → Bool} (a : List Char) (ha : ∀ c ∈ a, p c = true)
    (b : List Char) : (a ++ b).takeWhile p = a ++ b.takeWhile p := by
  induction a with
  | nil => simp
  | cons c a ih =>
    have hc : p c = true := ha c (by simp)
    simp [List.takeWhile_cons, hc, ih (fun d hd => ha d (by simp [hd]))]

/-- `dropWhile` skips a prefix all of whose characters satisfy the test. -/
theorem dropWhile_append_all {p : Char → Bool} (a : List Char) (ha : ∀ c ∈ a, p c = true)
    (b : List Char) : (a ++ b).dropWhile p = b.dropWhile p := by
  induction a with
  | nil => simp
  | cons c a ih =>
    have hc : p c = true := ha c (by simp)
    simp [List.dropWhile_cons, hc, ih (fun d hd => ha d (by simp [hd]))]

/-- `takeWhile` stops at a failing head. -/
theorem takeWhile_head_false {p : Char → Bool} (c : Char) (r : List Char) (hc : p c = false) :
    (c :: r).takeWhile p = [] := by
  simp [List.takeWhile_cons, hc]

/-- `dropWhile` keeps a failing head. -/
theorem dropWhile_head_false {p : Char → Bool} (c : Char) (r : List Char) (hc : p c = false) :
    (c :: r).dropWhile p = c :: r := by
  simp [List.dropWhile_cons, hc]

/-- The head of a `dropWhile` residue fails the test. -/
theorem dropWhile_head_not {p : Char → Bool} : ∀ (l : List Char) (c : Char) (r : List Char),
    l.dropWhile p = c :: r → p c = false := by
  intro l
  induction l with
  | nil => intro c r h; simp at h
  | cons a l ih =>
    intro c r h
    rw [List.dropWhile_cons] at h
    by_cases hp : p a = true
    · rw [if_pos hp] at h
      exact ih c r h
    · rw [if_neg hp] at h
      cases h
      exact Bool.eq_false_iff.2 hp

/-- Under sane separators, digits differ from all delimiter characters. -/
theorem digit_ne_delims (thousands_separator_symbol decimal_separator_symbol : Char)
    (hs : sep_sane thousands_separator_symbol decimal_separator_symbol) (c : Char)
    (hc : isDigitCh c = true) :
    c ≠ '-' ∧ c ≠ thousands_separator_symbol ∧ c ≠ decimal_separator_symbol ∧ c ≠ 'e' := by
  obtain ⟨h1, h2, _, _, _, _, _⟩ := hs
  refine ⟨fun hq => ?_, fun hq => ?_, fun hq => ?_, fun hq => ?_⟩
  · subst hq; exact absurd hc (by decide)
  · subst hq; rw [hc] at h1; cases h1
  · subst hq; rw [hc] at h2; cases h2
  · subst hq; exact absurd hc (by decide)

/-- Every character of a grouped integral segment is a digit or the
thousands separator. -/
theorem grouped_integral_chars (thousands_separator_symbol : Char) (I : List Char)
    (h : grouped_integral thousands_separator_symbol I) :
    ∀ c ∈ I, (isDigitCh c || decide (c = thousands_separator_symbol)) = true := by
  obtain ⟨g, gs, rfl, _, _, hg, hgs⟩ := h
  intro c hc
  rcases List.mem_append.1 hc with h | h
  · simp [List.all_eq_true.1 hg c h]
  · obtain ⟨b2, hb2, hcb⟩ := List.mem_flatten.1 h
    obtain ⟨b, hb, rfl⟩ := List.mem_map.1 hb2
    rcases List.mem_cons.1 hcb with rfl | hcb2
    · simp
    · simp [List.all_eq_true.1 (hgs b hb).2 c hcb2]

/-- A grouped integral segment starts with a digit. -/
theorem grouped_integral_head (thousands_separator_symbol : Char) (I : List Char)
    (h : grouped_integral thousands_separator_symbol I) :
    ∃ c r, I = c :: r ∧ isDigitCh c = true := by
  obtain ⟨g, gs, rfl, hg1, _, hg, _⟩ := h
  cases g with
  | nil => simp at hg1
  | cons c r => exact ⟨c, r ++ _, rfl, List.all_eq_true.1 hg c (by simp)⟩

/-- Soundness of `matchATail`, by induction on the segment length. -/
theorem matchATail_sound_aux (thousands_separator_symbol : Char) :
    ∀ (n : Nat) (r : List Char), r.length ≤ n →
    matchATail thousands_separator_symbol r = true →
    ∃ gs : List (List Char), r = (gs.map (fun b => thousands_separator_symbol :: b)).flatten ∧
      ∀ b ∈ gs, b.length = 3 ∧ b.all isDigitCh = true := by
  intro n
  induction n with
  | zero =>
    intro r hlen _
    have : r = [] := List.eq_nil_of_length_eq_zero (by omega)
    subst this
    exact ⟨[], by simp, by simp⟩
  | succ n ih =>
    intro r hlen h
    cases r with
    | nil => exact ⟨[], by simp, by simp⟩
    | cons c rest =>
      cases rest with
      | nil => simp [matchATail] at h
      | cons d1 t1 =>
        cases t1 with
        | nil => simp [matchATail] at h
        | cons d2 t2 =>
          cases t2 with
          | nil => simp [matchATail] at h
          | cons d3 rr =>
            simp only [matchATail.eq_2, Bool.and_eq_true, decide_eq_true_eq] at h
            obtain ⟨rfl, ⟨⟨hd1, hd2⟩, hd3⟩, hrec⟩ := h
            obtain ⟨gs, rfl, hgs⟩ := ih rr (by simp at hlen ⊢; omega) hrec
            refine ⟨[d1, d2, d3] :: gs, by simp, ?_⟩
            intro b hb
            rcases List.mem_cons.1 hb with rfl | hb2
            · exact ⟨rfl, by simp [hd1, hd2, hd3]⟩
            · exact hgs b hb2

/-- Soundness of `matchATail`: a match is a sequence of separator-prefixed
three-digit groups. -/
theorem matchATail_sound (thousands_separator_symbol : Char) (r : List Char)
    (h : matchATail thousands_separator_symbol r = true) :
    ∃ gs : List (List Char), r = (gs.map (fun b => thousands_separator_symbol :: b)).flatten ∧
      ∀ b ∈ gs, b.length = 3 ∧ b.all isDigitCh = true :=
  matchATail_sound_aux thousands_separator_symbol r.length r (le_refl _) h

/-- Completeness of `matchATail`. -/
theorem matchATail_complete (thousands_separator_symbol : Char) :
    ∀ gs : List (List Char), (∀ b ∈ gs, b.length = 3 ∧ b.all isDigitCh = true) →
    matchATail thousands_separator_symbol
      ((gs.map (fun b => thousands_separator_symbol :: b)).flatten) = true := by
  intro gs
  induction gs with
  | nil => intro _; rfl
  | cons b gs ih =>
    intro hgs
    obtain ⟨hlen, hdigb⟩ := hgs b (by simp)
    obtain ⟨d1, d2, d3, rfl⟩ : ∃ x y z, b = [x, y, z] := by
      cases b with
      | nil => simp at hlen
      | cons x t =>
        cases t with
        | nil => simp at hlen
        | cons y t2 =>
          cases t2 with
          | nil => simp at hlen
          | cons z t3 =>
            cases t3 with
            | nil => exact ⟨x, y, z, rfl⟩
            | cons w t4 => simp at hlen
    have hd : isDigitCh d1 = true ∧ isDigitCh d2 = true ∧ isDigitCh d3 = true := by
      simpa using hdigb
    have hrec := ih (fun b2 hb2 => hgs b2 (by simp [hb2]))
    simp only [List.map_cons, List.flatten_cons, List.cons_append, List.nil_append]
    simp only [matchATail, hrec, hd.1, hd.2.1, hd.2.2]
    simp

/-- Soundness of `matchA`: a match of the grouped alternative is a grouped
integral segment. -/
theorem matchA_sound (thousands_separator_symbol : Char) (cs : List Char)
    (h : matchA thousands_separator_symbol cs = true) :
    grouped_integral thousands_separator_symbol cs := by
  rw [matchA, List.any_eq_true] at h
  obtain ⟨i, hi, hcond⟩ := h
  simp only [Bool.and_eq_true, decide_eq_true_eq] at hcond
  obtain ⟨⟨hle, htake⟩, htail⟩ := hcond
  obtain ⟨gs, hdrop, hgs⟩ := matchATail_sound thousands_separator_symbol _ htail
  refine ⟨cs.take (i + 1), gs, ?_, ?_, ?_, htake, hgs⟩
  · rw [← hdrop]
    simp
  · have : (cs.take (i + 1)).length = i + 1 := by
      simp [Nat.min_eq_left hle]
    omega
  · have : (cs.take (i + 1)).length = i + 1 := by
      simp [Nat.min_eq_left hle]
    simp only [List.mem_range] at hi
    omega

/-- Completeness of `matchA`. -/
theorem matchA_complete (thousands_separator_symbol : Char) (cs : List Char)
    (h : grouped_integral thousands_separator_symbol cs) :
    matchA thousands_separator_symbol cs = true := by
  obtain ⟨g, gs, rfl, hg1, hg3, hdig, hgs⟩ := h
  rw [matchA, List.any_eq_true]
  refine ⟨g.length - 1, List.mem_range.2 (by omega), ?_⟩
  have hlen : g.length - 1 + 1 = g.length := by omega
  rw [hlen]
  simp only [Bool.and_eq_true, decide_eq_true_eq]
  refine ⟨⟨by simp, ?_⟩, ?_⟩
  · rw [List.take_left]
    exact hdig
  · rw [List.drop_left]
    exact matchATail_complete thousands_separator_symbol gs hgs

/-- The value of a digit run is nonnegative. -/
theorem digits_val_nonneg (ds : List Char) (hd : ds.all isDigitCh = true) :
    0 ≤ digits_val ds := by
  have aux : ∀ (l : List Char) (a : Int), 0 ≤ a → l.all isDigitCh = true →
      0 ≤ l.foldl (fun a c => a * 10 + ((c.toNat : Int) - 48)) a := by
    intro l
    induction l with
    | nil => intro a ha _; simpa using ha
    | cons c l ih =>
      intro a ha hall
      simp only [List.all_cons, Bool.and_eq_true] at hall
      have hc : 48 ≤ c.toNat := by
        have h1 : isDigitCh c = true := hall.1
        simp only [isDigitCh, Bool.and_eq_true, decide_eq_true_eq] at h1
        exact h1.1
      exact ih (a * 10 + ((c.toNat : Int) - 48)) (by omega) hall.2
  exact aux ds 0 (by omega) hd

/-- `stoi` on an unsigned digit run. -/
theorem stoi_digits (ed : List Char) (hed : ed ≠ []) (hd : ed.all isDigitCh = true) :
    stoi ed = (if digits_val ed > 2147483647 then .error .stoiOutOfRange
               else .ok (digits_val ed)) := by
  obtain ⟨c, r, rfl⟩ : ∃ c r, ed = c :: r := by
    cases ed with
    | nil => exact absurd rfl hed
    | cons c r => exact ⟨c, r, rfl⟩
  have hc : isDigitCh c = true := by
    simp only [List.all_cons, Bool.and_eq_true] at hd
    exact hd.1
  have hcm : c ≠ '-' := by
    intro hq
    subst hq
    exact absurd hc (by decide)
  have hnn : 0 ≤ digits_val (c :: r) := digits_val_nonneg _ hd
  simp only [stoi, if_neg hcm]
  rw [show ((c :: r).foldl (fun a c => a * 10 + ((c.toNat : Int) - 48)) 0) =
    digits_val (c :: r) from rfl]
  rw [one_mul]
  by_cases hbig : digits_val (c :: r) > 2147483647
  · rw [if_pos hbig, if_pos (Or.inr hbig)]
  · rw [if_neg hbig, if_neg (by omega)]

/-- `stoi` on a minus-signed digit run. -/
theorem stoi_neg_digits (ed : List Char) (hed : ed ≠ []) (hd : ed.all isDigitCh = true) :
    stoi ('-' :: ed) = (if -digits_val ed < -2147483648 then .error .stoiOutOfRange
                        else .ok (-digits_val ed)) := by
  have hnn : 0 ≤ digits_val ed := digits_val_nonneg _ hd
  have hstoi : stoi ('-' :: ed) =
      (if (-1 : Int) * digits_val ed < -2147483648 ∨
          (-1 : Int) * digits_val ed > 2147483647
       then .error .stoiOutOfRange else .ok ((-1 : Int) * digits_val ed)) := rfl
  rw [hstoi, show (-1 : Int) * digits_val ed = -digits_val ed by ring]
  by_cases hbig : -digits_val ed < -2147483648
  · rw [if_pos (Or.inl hbig), if_pos hbig]
  · rw [if_neg (by omega), if_neg hbig]

/-- Soundness of the post-sign phase of the number-pattern match: a
successful match decomposes its input into integral, fractional and
exponent segments of the documented shapes, with the capture groups as
recorded in the result. -/
theorem numberRegexCore_sound (thousands_separator_symbol decimal_separator_symbol : Char)
    (neg : Bool) (cs1 : List Char) (caps : RegexCaps)
    (h : numberRegexCore thousands_separator_symbol decimal_separator_symbol neg cs1 =
      some caps) :
    ∃ I F E, cs1 = I ++ F ++ E ∧ caps.negative = neg ∧
      caps.integral? = (if I = [] then none else some I) ∧
      (I = [] ∨ grouped_integral thousands_separator_symbol I ∨
        (I ≠ [] ∧ I.all isDigitCh = true)) ∧
      ((F = [] ∧ caps.fractional? = none) ∨
        ∃ fd, F = decimal_separator_symbol :: fd ∧ caps.fractional? = some fd ∧
          fd ≠ [] ∧ fd.all isDigitCh = true) ∧
      ((E = [] ∧ caps.exponent? = none) ∨
        ∃ es ed, E = 'e' :: (es ++ ed) ∧ caps.exponent? = some (es ++ ed) ∧
          (es = [] ∨ es = ['-']) ∧ ed ≠ [] ∧ ed.all isDigitCh = true) := by
  simp only [numberRegexCore] at h
  set p : Char → Bool :=
    fun c => isDigitCh c || decide (c = thousands_separator_symbol) with hp
  by_cases hseg : cs1.takeWhile p ≠ [] ∧
      ¬ (matchA thousands_separator_symbol (cs1.takeWhile p) ∨
        (cs1.takeWhile p).all isDigitCh)
  · rw [if_pos hseg] at h
    cases h
  · rw [if_neg hseg] at h
    have hIcond : cs1.takeWhile p = [] ∨
        grouped_integral thousands_separator_symbol (cs1.takeWhile p) ∨
        (cs1.takeWhile p ≠ [] ∧ (cs1.takeWhile p).all isDigitCh = true) := by
      by_cases hnil : cs1.takeWhile p = []
      · exact Or.inl hnil
      · push_neg at hseg
        rcases hseg hnil with hA | hdig
        · exact Or.inr (Or.inl (matchA_sound _ _ hA))
        · exact Or.inr (Or.inr ⟨hnil, hdig⟩)
    have hsplit : cs1.takeWhile p ++ cs1.dropWhile p = cs1 :=
      List.takeWhile_append_dropWhile p cs1
    cases hcs2 : cs1.dropWhile p with
    | nil =>
      rw [hcs2] at h
      dsimp only [Option.bind] at h
      cases h
      refine ⟨cs1.takeWhile p, [], [], ?_, rfl, rfl, hIcond,
        Or.inl ⟨rfl, rfl⟩, Or.inl ⟨rfl, rfl⟩⟩
      rw [hcs2] at hsplit
      simpa using hsplit.symm
    | cons c2 r2 =>
      rw [hcs2] at h
      rw [hcs2] at hsplit
      dsimp only at h
      by_cases hc2D : c2 = decimal_separator_symbol
      · rw [if_pos hc2D] at h
        by_cases hfd : r2.takeWhile isDigitCh = []
        · rw [if_pos hfd] at h
          cases h
        · rw [if_neg hfd] at h
          dsimp only [Option.bind] at h
          have hr2 : r2.takeWhile isDigitCh ++ r2.dropWhile isDigitCh = r2 :=
            List.takeWhile_append_dropWhile isDigitCh r2
          have hfdall : (r2.takeWhile isDigitCh).all isDigitCh = true := by
            rw [List.all_eq_true]
            intro d hdmem
            exact List.mem_takeWhile_imp hdmem
          generalize htw : r2.takeWhile isDigitCh = tw at h hfd hfdall hr2
          cases hr3 : r2.dropWhile isDigitCh with
          | nil =>
            rw [hr3] at h
            rw [hr3, List.append_nil] at hr2
            dsimp only at h
            cases h
            refine ⟨cs1.takeWhile p, decimal_separator_symbol :: tw, [],
              ?_, rfl, rfl, hIcond,
              Or.inr ⟨tw, rfl, rfl, hfd, hfdall⟩,
              Or.inl ⟨rfl, rfl⟩⟩
            conv_lhs => rw [← hsplit]
            rw [List.append_assoc]
            refine congrArg _ ?_
            rw [List.append_nil, hc2D, hr2]
          | cons c3 r3 =>
            rw [hr3] at h
            rw [hr3] at hr2
            dsimp only at h
            by_cases hc3 : c3 = 'e'
            · rw [if_pos hc3] at h
              cases hr4 : r3 with
              | nil =>
                rw [hr4] at h
                dsimp only at h
                rw [if_neg (by simp)] at h
                cases h
              | cons c4 r4 =>
                rw [hr4] at h
                dsimp only at h
                by_cases hc4 : c4 = '-'
                · rw [if_pos hc4] at h
                  dsimp only at h
                  by_cases hds : r4 ≠ [] ∧ r4.all isDigitCh = true
                  · rw [if_pos hds] at h
                    cases h
                    refine ⟨cs1.takeWhile p,
                      decimal_separator_symbol :: tw,
                      'e' :: ([c4] ++ r4), ?_, rfl, rfl, hIcond,
                      Or.inr ⟨tw, rfl, rfl, hfd, hfdall⟩,
                      Or.inr ⟨[c4], r4, rfl, rfl, Or.inr (by rw [hc4]), hds.1, hds.2⟩⟩
                    conv_lhs => rw [← hsplit]
                    rw [List.append_assoc]
                    refine congrArg _ ?_
                    rw [hc2D, ← hr2, hc3, hr4]
                    simp
                  · rw [if_neg hds] at h
                    cases h
                · rw [if_neg hc4] at h
                  dsimp only at h
                  by_cases hds : (c4 :: r4) ≠ [] ∧ (c4 :: r4).all isDigitCh = true
                  · rw [if_pos hds] at h
                    cases h
                    refine ⟨cs1.takeWhile p,
                      decimal_separator_symbol :: tw,
                      'e' :: ([] ++ (c4 :: r4)), ?_, rfl, rfl, hIcond,
                      Or.inr ⟨tw, rfl, rfl, hfd, hfdall⟩,
                      Or.inr ⟨[], c4 :: r4, rfl, rfl, Or.inl rfl, hds.1, hds.2⟩⟩
                    conv_lhs => rw [← hsplit]
                    rw [List.append_assoc]
                    refine congrArg _ ?_
                    rw [hc2D, ← hr2, hc3, hr4]
                    simp
                  · rw [if_neg hds] at h
                    cases h
            · rw [if_neg hc3] at h
              cases h
      · rw [if_neg hc2D] at h
        dsimp only [Option.bind] at h
        by_cases hc2e : c2 = 'e'
        · rw [if_pos hc2e] at h
          cases hr4 : r2 with
          | nil =>
            rw [hr4] at h
            dsimp only at h
            rw [if_neg (by simp)] at h
            cases h
          | cons c4 r4 =>
            rw [hr4] at h
            dsimp only at h
            by_cases hc4 : c4 = '-'
            · rw [if_pos hc4] at h
              dsimp only at h
              by_cases hds : r4 ≠ [] ∧ r4.all isDigitCh = true
              · rw [if_pos hds] at h
                cases h
                refine ⟨cs1.takeWhile p, [], 'e' :: ([c4] ++ r4), ?_, rfl, rfl, hIcond,
                  Or.inl ⟨rfl, rfl⟩,
                  Or.inr ⟨[c4], r4, rfl, rfl, Or.inr (by rw [hc4]), hds.1, hds.2⟩⟩
                conv_lhs => rw [← hsplit]
                rw [List.append_assoc]
                refine congrArg _ ?_
                rw [hc2e, hr4]
                simp
              · rw [if_neg hds] at h
                cases h
            · rw [if_neg hc4] at h
              dsimp only at h
              by_cases hds : (c4 :: r4) ≠ [] ∧ (c4 :: r4).all isDigitCh = true
              · rw [if_pos hds] at h
                cases h
                refine ⟨cs1.takeWhile p, [], 'e' :: ([] ++ (c4 :: r4)), ?_, rfl, rfl, hIcond,
                  Or.inl ⟨rfl, rfl⟩,
                  Or.inr ⟨[], c4 :: r4, rfl, rfl, Or.inl rfl, hds.1, hds.2⟩⟩
                conv_lhs => rw [← hsplit]
                rw [List.append_assoc]
                refine congrArg _ ?_
                rw [hc2e, hr4]
                simp
              · rw [if_neg hds] at h
                cases h
        · rw [if_neg hc2e] at h
          cases h

/-- Completeness of the post-sign phase of the number-pattern match: any
input built from segments of the documented shapes is matched, with the
capture groups read off the decomposition. -/
theorem numberRegexCore_complete (thousands_separator_symbol decimal_separator_symbol : Char)
    (hsane : sep_sane thousands_separator_symbol decimal_separator_symbol) (neg : Bool)
    (I F E : List Char)
    (hI : I = [] ∨ grouped_integral thousands_separator_symbol I ∨
      (I ≠ [] ∧ I.all isDigitCh = true))
    (hF : F = [] ∨ ∃ fd, F = decimal_separator_symbol :: fd ∧ fd ≠ [] ∧
      fd.all isDigitCh = true)
    (hE : E = [] ∨ ∃ es ed, E = 'e' :: (es ++ ed) ∧ (es = [] ∨ es = ['-']) ∧
      ed ≠ [] ∧ ed.all isDigitCh = true) :
    numberRegexCore thousands_separator_symbol decimal_separator_symbol neg (I ++ F ++ E) =
      some ⟨neg, if I = [] then none else some I,
        if F = [] then none else some F.tail,
        if E = [] then none else some E.tail⟩ := by
  obtain ⟨hT, hD, hTD, hTe, hDe, hTm, hDm⟩ := hsane
  have hIall : ∀ c ∈ I, (isDigitCh c || decide (c = thousands_separator_symbol)) = true := by
    rcases hI with rfl | hg | ⟨hne, hall⟩
    · intro c hc
      cases hc
    · exact grouped_integral_chars _ _ hg
    · intro c hc
      simp [List.all_eq_true.1 hall c hc]
  have hpe : (isDigitCh 'e' || decide ('e' = thousands_separator_symbol)) = false := by
    have h1 : isDigitCh 'e' = false := by decide
    have h2 : decide ('e' = thousands_separator_symbol) = false :=
      decide_eq_false (fun hq => hTe hq.symm)
    rw [h1, h2]
    rfl
  have hpD : (isDigitCh decimal_separator_symbol ||
      decide (decimal_separator_symbol = thousands_separator_symbol)) = false := by
    have h2 : decide (decimal_separator_symbol = thousands_separator_symbol) = false :=
      decide_eq_false (fun hq => hTD hq.symm)
    rw [hD, h2]
    rfl
  have hFE1 : (F ++ E).takeWhile
        (fun c => isDigitCh c || decide (c = thousands_separator_symbol)) = [] ∧
      (F ++ E).dropWhile
        (fun c => isDigitCh c || decide (c = thousands_separator_symbol)) = F ++ E := by
    rcases hF with rfl | ⟨fd, rfl, hfdne, hfdall⟩
    · rcases hE with rfl | ⟨es, ed, rfl, _, _, _⟩
      · simp
      · rw [List.nil_append]
        exact ⟨takeWhile_head_false _ _ hpe, dropWhile_head_false _ _ hpe⟩
    · rw [List.cons_append]
      exact ⟨takeWhile_head_false _ _ hpD, dropWhile_head_false _ _ hpD⟩
  have htake := takeWhile_append_all I hIall (F ++ E)
  rw [hFE1.1, List.append_nil] at htake
  have hdrop := dropWhile_append_all I hIall (F ++ E)
  rw [hFE1.2] at hdrop
  have hguard : ¬(I ≠ [] ∧
      ¬(matchA thousands_separator_symbol I = true ∨ I.all isDigitCh = true)) := by
    rcases hI with rfl | hg | ⟨hne, hall⟩
    · simp
    · intro hq
      exact hq.2 (Or.inl (matchA_complete _ _ hg))
    · intro hq
      exact hq.2 (Or.inr hall)
  rw [List.append_assoc]
  simp only [numberRegexCore]
  rw [htake, hdrop, if_neg hguard]
  have hde : isDigitCh 'e' = false := by decide
  rcases hF with rfl | ⟨fd, rfl, hfdne, hfdall⟩
  · rcases hE with rfl | ⟨es, ed, rfl, hsgn, hedne, hedall⟩
    · rfl
    · rw [List.nil_append]
      dsimp only
      rw [if_neg (fun hq => hDe hq.symm)]
      dsimp only [Option.bind]
      rw [if_pos rfl]
      rcases hsgn with rfl | rfl
      · rw [List.nil_append]
        cases ed with
        | nil => exact absurd rfl hedne
        | cons d dr =>
          have hd : d ≠ '-' := by
            have hdd : isDigitCh d = true := by
              simp only [List.all_cons, Bool.and_eq_true] at hedall
              exact hedall.1
            intro hq
            subst hq
            exact absurd hdd (by decide)
          dsimp only
          rw [if_neg hd]
          rw [if_pos ⟨List.cons_ne_nil d dr, hedall⟩]
          rfl
      · rw [List.cons_append, List.nil_append]
        dsimp only
        rw [if_pos rfl]
        rw [if_pos ⟨hedne, hedall⟩]
        rfl
  · have hfdall' : ∀ c ∈ fd, isDigitCh c = true := List.all_eq_true.1 hfdall
    rcases hE with rfl | ⟨es, ed, rfl, hsgn, hedne, hedall⟩
    · rw [List.append_nil]
      dsimp only
      rw [if_pos rfl]
      have htk : fd.takeWhile isDigitCh = fd := by
        have h0 := takeWhile_append_all fd hfdall' []
        simpa using h0
      have hdr : fd.dropWhile isDigitCh = [] := by
        have h0 := dropWhile_append_all fd hfdall' []
        simpa using h0
      rw [htk, hdr, if_neg hfdne]
      rfl
    · rw [List.cons_append]
      dsimp only
      rw [if_pos rfl]
      have htk : (fd ++ ('e' :: (es ++ ed))).takeWhile isDigitCh = fd := by
        rw [takeWhile_append_all fd hfdall' _, takeWhile_head_false _ _ hde,
          List.append_nil]
      have hdr : (fd ++ ('e' :: (es ++ ed))).dropWhile isDigitCh = 'e' :: (es ++ ed) := by
        rw [dropWhile_append_all fd hfdall' _, dropWhile_head_false _ _ hde]
      rw [htk, hdr, if_neg hfdne]
      dsimp only [Option.bind]
      rw [if_pos rfl]
      rcases hsgn with rfl | rfl
      · rw [List.nil_append]
        cases ed with
        | nil => exact absurd rfl hedne
        | cons d dr =>
          have hd : d ≠ '-' := by
            have hdd : isDigitCh d = true := by
              simp only [List.all_cons, Bool.and_eq_true] at hedall
              exact hedall.1
            intro hq
            subst hq
            exact absurd hdd (by decide)
          dsimp only
          rw [if_neg hd]
          rw [if_pos ⟨List.cons_ne_nil d dr, hedall⟩]
          rfl
      · rw [List.cons_append, List.nil_append]
        dsimp only
        rw [if_pos rfl]
        rw [if_pos ⟨hedne, hedall⟩]
        rfl

/-- The sign phase of the number-pattern match: a successful full match
splits off an optional leading minus sign, recorded in the `negative`
capture, and matches the remainder with the core phase. -/
theorem numberRegexMatch_sound (thousands_separator_symbol decimal_separator_symbol : Char)
    (cs : List Char) (caps : RegexCaps)
    (h : numberRegexMatch thousands_separator_symbol decimal_separator_symbol cs =
      some caps) :
    ∃ sgn cs1, cs = sgn ++ cs1 ∧
      ((sgn = [] ∧ caps.negative = false) ∨ (sgn = ['-'] ∧ caps.negative = true)) ∧
      numberRegexCore thousands_separator_symbol decimal_separator_symbol caps.negative cs1 =
        some caps := by
  cases cs with
  | nil =>
    simp only [numberRegexMatch] at h
    obtain ⟨_, _, _, _, hneg, _⟩ := numberRegexCore_sound _ _ _ _ _ h
    refine ⟨[], [], rfl, Or.inl ⟨rfl, hneg⟩, ?_⟩
    rw [hneg]
    exact h
  | cons c r =>
    simp only [numberRegexMatch] at h
    by_cases hc : c = '-'
    · rw [if_pos hc] at h
      obtain ⟨_, _, _, _, hneg, _⟩ := numberRegexCore_sound _ _ _ _ _ h
      subst hc
      refine ⟨['-'], r, rfl, Or.inr ⟨rfl, hneg⟩, ?_⟩
      rw [hneg]
      exact h
    · rw [if_neg hc] at h
      obtain ⟨_, _, _, _, hneg, _⟩ := numberRegexCore_sound _ _ _ _ _ h
      refine ⟨[], c :: r, rfl, Or.inl ⟨rfl, hneg⟩, ?_⟩
      rw [hneg]
      exact h

/-- If `is_number` answers `true`, the input has the documented number
shape, with in-range exponent digits. -/
theorem is_number_true_shape (opts : conversion_options_t) (cs : List Char)
    (h : is_number opts cs = .ok true) :
    number_shape_fits opts.thousands_separator_symbol opts.decimal_separator_symbol cs := by
  simp only [is_number, extract_number_parts] at h
  cases hm : numberRegexMatch opts.thousands_separator_symbol
      opts.decimal_separator_symbol cs with
  | none =>
    rw [hm] at h
    simp [Except.map] at h
  | some caps =>
    rw [hm] at h
    dsimp only at h
    by_cases hnn : caps.integral? = none ∧ caps.fractional? = none
    · rw [if_pos hnn] at h
      simp [Except.map] at h
    · rw [if_neg hnn] at h
      obtain ⟨sgn, cs1, rfl, hsgn, hcore⟩ := numberRegexMatch_sound _ _ _ _ hm
      obtain ⟨I, F, E, rfl, hneg, hint, hI, hFd, hEd⟩ := numberRegexCore_sound _ _ _ _ _ hcore
      have hsgn' : sgn = [] ∨ sgn = ['-'] := by
        rcases hsgn with ⟨h1, _⟩ | ⟨h1, _⟩
        · exact Or.inl h1
        · exact Or.inr h1
      have hF' : F = [] ∨ ∃ fd, F = opts.decimal_separator_symbol :: fd ∧ fd ≠ [] ∧
          fd.all isDigitCh = true := by
        rcases hFd with ⟨h1, _⟩ | ⟨fd, h1, _, h3, h4⟩
        · exact Or.inl h1
        · exact Or.inr ⟨fd, h1, h3, h4⟩
      have hIF : I ≠ [] ∨ F ≠ [] := by
        by_cases hInil : I = []
        · by_cases hFnil : F = []
          · exfalso
            refine hnn ⟨by rw [hint, if_pos hInil], ?_⟩
            rcases hFd with ⟨_, h2⟩ | ⟨fd, h1, _, _, _⟩
            · exact h2
            · exact absurd h1 (by rw [hFnil]; exact fun hq => List.noConfusion hq)
          · exact Or.inr hFnil
        · exact Or.inl hInil
      have hE' : E = [] ∨ ∃ es ed, E = 'e' :: (es ++ ed) ∧ (es = [] ∨ es = ['-']) ∧
          ed ≠ [] ∧ ed.all isDigitCh = true ∧
          -2147483648 ≤ (if es = [] then 1 else -1) * digits_val ed ∧
          (if es = [] then 1 else -1) * digits_val ed ≤ 2147483647 := by
        rcases hEd with ⟨h1, _⟩ | ⟨es, ed, hEeq, hexpeq, hes, hedne, hedall⟩
        · exact Or.inl h1
        · rw [hexpeq] at h
          dsimp only at h
          have hnn0 : 0 ≤ digits_val ed := digits_val_nonneg ed hedall
          rcases hes with rfl | rfl
          · rw [List.nil_append] at h
            rw [stoi_digits ed hedne hedall] at h
            by_cases hbig : digits_val ed > 2147483647
            · rw [if_pos hbig] at h
              simp [Except.map] at h
            · refine Or.inr ⟨[], ed, hEeq, Or.inl rfl, hedne, hedall, ?_, ?_⟩
              · rw [if_pos rfl, one_mul]
                omega
              · rw [if_pos rfl, one_mul]
                omega
          · rw [List.cons_append, List.nil_append] at h
            rw [stoi_neg_digits ed hedne hedall] at h
            by_cases hbig : -digits_val ed < -2147483648
            · rw [if_pos hbig] at h
              simp [Except.map] at h
            · refine Or.inr ⟨['-'], ed, hEeq, Or.inr rfl, hedne, hedall, ?_, ?_⟩
              · rw [if_neg (by simp), neg_one_mul]
                omega
              · rw [if_neg (by simp), neg_one_mul]
                omega
      refine ⟨sgn, I, F, E, by simp [List.append_assoc], hsgn', hI, hF', hE', hIF⟩

/-- When the number pattern matches with the capture groups read off a
shape decomposition whose exponent digits are in range, `is_number`
answers `true`: the integral/fractional presence check passes and
`std::stoi` on the exponent capture returns. -/
theorem is_number_of_match (opts : conversion_options_t) (cs : List Char)
    (I F E : List Char) (neg : Bool)
    (hmatch : numberRegexMatch opts.thousands_separator_symbol
      opts.decimal_separator_symbol cs =
      some ⟨neg, if I = [] then none else some I,
        if F = [] then none else some F.tail,
        if E = [] then none else some E.tail⟩)
    (hF : F = [] ∨ ∃ fd, F = opts.decimal_separator_symbol :: fd ∧ fd ≠ [] ∧
      fd.all isDigitCh = true)
    (hE : E = [] ∨ ∃ es ed, E = 'e' :: (es ++ ed) ∧ (es = [] ∨ es = ['-']) ∧
      ed ≠ [] ∧ ed.all isDigitCh = true ∧
      -2147483648 ≤ (if es = [] then 1 else -1) * digits_val ed ∧
      (if es = [] then 1 else -1) * digits_val ed ≤ 2147483647)
    (hIF : I ≠ [] ∨ F ≠ []) :
    is_number opts cs = .ok true := by
  simp only [is_number, extract_number_parts, hmatch]
  have hnotboth : ¬((if I = [] then none else some I : Option (List Char)) = none ∧
      (if F = [] then none else some F.tail : Option (List Char)) = none) := by
    intro hq
    rcases hIF with hIne | hFne
    · rw [if_neg hIne] at hq
      cases hq.1
    · rw [if_neg hFne] at hq
      cases hq.2
  rw [if_neg hnotboth]
  rcases hE with rfl | ⟨es, ed, rfl, hes, hedne, hedall, hlo, hhi⟩
  · simp [Except.map]
  · have hnn0 : 0 ≤ digits_val ed := digits_val_nonneg ed hedall
    rw [if_neg (List.cons_ne_nil _ _)]
    dsimp only [List.tail]
    rcases hes with rfl | rfl
    · have hhi' : digits_val ed ≤ 2147483647 := by simpa using hhi
      simp only [List.nil_append]
      have hst : stoi ed = .ok (digits_val ed) := by
        rw [stoi_digits ed hedne hedall, if_neg (by omega)]
      rw [hst]
      simp [Except.map, apply_ite Option.isSome]
    · have hlo' : -2147483648 ≤ -digits_val ed := by simpa using hlo
      simp only [List.cons_append, List.nil_append]
      have hst : stoi ('-' :: ed) = .ok (-digits_val ed) := by
        rw [stoi_neg_digits ed hedne hedall, if_neg (by omega)]
      rw [hst]
      simp [Except.map, apply_ite Option.isSome]

/-- A shape decomposition with empty sign starts with a character other
than the minus sign. -/
theorem shape_head_ne_minus (thousands_separator_symbol decimal_separator_symbol : Char)
    (hsane : sep_sane thousands_separator_symbol decimal_separator_symbol)
    (I F E : List Char)
    (hI : I = [] ∨ grouped_integral thousands_separator_symbol I ∨
      (I ≠ [] ∧ I.all isDigitCh = true))
    (hF : F = [] ∨ ∃ fd, F = decimal_separator_symbol :: fd ∧ fd ≠ [] ∧
      fd.all isDigitCh = true)
    (hIF : I ≠ [] ∨ F ≠ []) :
    ∃ c0 rest, I ++ F ++ E = c0 :: rest ∧ c0 ≠ '-' := by
  by_cases hInil : I = []
  · subst hInil
    rcases hIF with hIne | hFne
    · exact absurd rfl hIne
    · rcases hF with rfl | ⟨fd, rfl, _, _⟩
      · exact absurd rfl hFne
      · exact ⟨decimal_separator_symbol, fd ++ E, by simp, hsane.2.2.2.2.2.2⟩
  · have hhd : ∃ c r, I = c :: r ∧ isDigitCh c = true := by
      rcases hI with rfl | hg | ⟨_, hall⟩
      · exact absurd rfl hInil
      · exact grouped_integral_head _ _ hg
      · cases I with
        | nil => exact absurd rfl hInil
        | cons c r =>
          refine ⟨c, r, rfl, ?_⟩
          simp only [List.all_cons, Bool.and_eq_true] at hall
          exact hall.1
    obtain ⟨c, r, rfl, hcd⟩ := hhd
    refine ⟨c, r ++ F ++ E, by simp, ?_⟩
    intro hq
    subst hq
    exact absurd hcd (by decide)

/-- Any input of the documented shape whose exponent digits are in range
is accepted by `is_number` (under sane separator symbols). -/
theorem shape_is_number_true (opts : conversion_options_t) (cs : List Char)
    (hsane : sep_sane opts.thousands_separator_symbol opts.decimal_separator_symbol)
    (hs : number_shape_fits opts.thousands_separator_symbol
      opts.decimal_separator_symbol cs) :
    is_number opts cs = .ok true := by
  obtain ⟨sgn, I, F, E, rfl, hsgn, hI, hF, hE, hIF⟩ := hs
  have hEw : E = [] ∨ ∃ es ed, E = 'e' :: (es ++ ed) ∧ (es = [] ∨ es = ['-']) ∧
      ed ≠ [] ∧ ed.all isDigitCh = true := by
    rcases hE with h1 | ⟨es, ed, h1, h2, h3, h4, _, _⟩
    · exact Or.inl h1
    · exact Or.inr ⟨es, ed, h1, h2, h3, h4⟩
  rcases hsgn with rfl | rfl
  · obtain ⟨c0, rest, heq, hc0⟩ := shape_head_ne_minus _ _ hsane I F E hI hF hIF
    refine is_number_of_match opts _ I F E false ?_ hF hE hIF
    simp only [List.nil_append]
    simp only [numberRegexMatch]
    rw [heq]
    dsimp only
    rw [if_neg hc0, ← heq]
    exact numberRegexCore_complete _ _ hsane false I F E hI hF hEw
  · refine is_number_of_match opts _ I F E true ?_ hF hE hIF
    have hcons : ['-'] ++ I ++ F ++ E = '-' :: (I ++ F ++ E) := by simp
    rw [hcons]
    simp only [numberRegexMatch]
    rw [if_pos trivial]
    exact numberRegexCore_complete _ _ hsane true I F E hI hF hEw

/-- C2 counterexample: the input 1e9999999999 matches the documented number
shape `[-]? ( d{1,3}(Td{3})* | d+ ) ( D d+ )? ( e -? d+ )?` with an integral
group present, yet `is_number` does not return `true` (or `false`) for it --
the `std::out_of_range` thrown by `std::stoi` on the ten-digit exponent
capture escapes instead. -/
theorem C2_counterexample :
    number_shape default_options.thousands_separator_symbol
      default_options.decimal_separator_symbol (str ("1e9999999999")) ∧
    is_number default_options (str ("1e9999999999")) = .error .stoiOutOfRange := by
  constructor
  · refine ⟨[], ['1'], [], 'e' :: ([] ++ str ("9999999999")), by decide, Or.inl rfl,
      Or.inr (Or.inr ⟨by decide, by decide⟩), Or.inl rfl,
      Or.inr ⟨[], str ("9999999999"), rfl, Or.inl rfl, by decide, by decide⟩,
      Or.inl (by decide)⟩
  · rfl

/-- C2 (amended): under separator symbols that are not digits, not `e`, not
`-` and mutually distinct, `is_number` returns `true` exactly on the inputs
matching the documented shape `[-]? ( d{1,3}(Td{3})* | d+ ) ( D d+ )? ( e -? d+ )?`
with at least one of the integral/fractional digit groups present AND whose
exponent digits, when present, denote a value inside the 32-bit `int` range
(on shape-matching inputs with an out-of-range exponent it throws
`std::out_of_range` instead of answering). In particular `-` alone and
`1-e3` are rejected while `.75` is accepted. -/
theorem C2_is_number_iff :
    (∀ (opts : conversion_options_t) (cs : List Char),
      sep_sane opts.thousands_separator_symbol opts.decimal_separator_symbol →
      (is_number opts cs = .ok true ↔
        number_shape_fits opts.thousands_separator_symbol
          opts.decimal_separator_symbol cs)) ∧
    is_number default_options (str ("-")) = .ok false ∧
    is_number default_options (str ("1-e3")) = .ok false ∧
    is_number default_options (str (".75")) = .ok true :=
  ⟨fun opts cs hsane => ⟨fun h => is_number_true_shape opts cs h,
    fun h => shape_is_number_true opts cs hsane h⟩, rfl, rfl, rfl⟩

/-- Witness for `C2_is_number_iff`: the default separator symbols are sane,
and the equivalence is exercised at the concrete input 1,234.5e-2. -/
theorem C2_is_number_iff_witness :
    sep_sane default_options.thousands_separator_symbol
      default_options.decimal_separator_symbol ∧
    (is_number default_options (str ("1,234.5e-2")) = .ok true ↔
      number_shape_fits default_options.thousands_separator_symbol
        default_options.decimal_separator_symbol (str ("1,234.5e-2"))) :=
  ⟨by simp only [sep_sane]; decide, C2_is_number_iff.1 default_options (str ("1,234.5e-2"))
    (by simp only [sep_sane]; decide)⟩

/-- A successful `bind` factors through a successful first stage. -/
theorem except_bind_ok {ε α β : Type} (x : Except ε α) (f : α → Except ε β) (b : β)
    (h : x.bind f = .ok b) : ∃ a, x = .ok a ∧ f a = .ok b := by
  cases x with
  | error e => simp [Except.bind] at h
  | ok a => exact ⟨a, rfl, h⟩

/-- A successful `map` factors through a successful argument. -/
theorem except_map_ok {ε α β : Type} (x : Except ε α) (f : α → β) (b : β)
    (h : x.map f = .ok b) : ∃ a, x = .ok a ∧ f a = b := by
  cases x with
  | error e => simp [Except.map] at h
  | ok a =>
    refine ⟨a, rfl, ?_⟩
    simp only [Except.map] at h
    cases h
    rfl

/-- Concatenation preserves the letter invariant: empty, or containing a
lowercase letter other than `e`. -/
theorem good_char_append (a b : List Char)
    (ha : a = [] ∨ ∃ c ∈ a, isLowerCh c = true ∧ c ≠ 'e')
    (hb : b = [] ∨ ∃ c ∈ b, isLowerCh c = true ∧ c ≠ 'e') :
    a ++ b = [] ∨ ∃ c ∈ a ++ b, isLowerCh c = true ∧ c ≠ 'e' := by
  rcases ha with rfl | ⟨c, hc, hg⟩
  · simpa using hb
  · exact Or.inr ⟨c, List.mem_append.2 (Or.inl hc), hg⟩

/-- Every term word of the vocabulary contains a lowercase letter other
than `e`. -/
theorem value_to_term_good : ∀ p ∈ value_to_term,
    (p.2.any (fun c => isLowerCh c && decide (c ≠ 'e'))) = true := by decide

/-- A successful term lookup yields a word with a lowercase non-`e`
letter. -/
theorem lookupSL_good (key w : List Char) (h : lookupSL value_to_term key = some w) :
    ∃ c ∈ w, isLowerCh c = true ∧ c ≠ 'e' := by
  rw [lookupSL] at h
  rcases Option.map_eq_some'.1 h with ⟨p, hfind, rfl⟩
  have hmem := List.mem_of_find?_eq_some hfind
  rcases List.any_eq_true.1 (value_to_term_good p hmem) with ⟨c, hc, hcg⟩
  simp only [Bool.and_eq_true, decide_eq_true_eq] at hcg
  exact ⟨c, hc, hcg.1, hcg.2⟩

/-- The base-term emission yields the empty string or a string containing
a lowercase non-`e` letter. -/
theorem encode_term_good (value : List Char) (added : Bool) (p : List Char × Bool)
    (h : encode_term value added = .ok p) :
    p.1 = [] ∨ ∃ c ∈ p.1, isLowerCh c = true ∧ c ≠ 'e' := by
  rw [encode_term] at h
  by_cases h1 : value ≠ [] ∧ ¬ added = true
  · rw [if_pos h1] at h
    cases hl : lookupSL value_to_term value with
    | some word =>
      rw [hl] at h
      cases h
      obtain ⟨c, hc, hg⟩ := lookupSL_good _ _ hl
      exact Or.inr ⟨c, List.mem_append.2 (Or.inl hc), hg⟩
    | none =>
      rw [hl] at h
      dsimp only at h
      by_cases h2 : value.length = 2
      · rw [if_pos h2] at h
        cases hl2 : lookupSL value_to_term [value.headD '0', '0'] with
        | some word =>
          rw [hl2] at h
          cases h
          obtain ⟨c, hc, hg⟩ := lookupSL_good _ _ hl2
          exact Or.inr ⟨c, List.mem_append.2 (Or.inl hc), hg⟩
        | none =>
          rw [hl2] at h
          cases h
      · rw [if_neg h2] at h
        cases h
  · rw [if_neg h1] at h
    cases h
    exact Or.inl rfl

/-- A magnitude root with a suffix containing a lowercase non-`e` letter
keeps such a letter. -/
theorem magnitude_root_word_good (f : Nat) (s w : List Char)
    (hs : ∃ c ∈ s, isLowerCh c = true ∧ c ≠ 'e')
    (h : magnitude_root_word f s = .ok w) :
    ∃ c ∈ w, isLowerCh c = true ∧ c ≠ 'e' := by
  rw [magnitude_root_word] at h
  obtain ⟨c, hc, hg⟩ := hs
  cases h1 : lookupL factor_to_root f with
  | some root =>
    rw [h1] at h
    cases h
    exact ⟨c, List.mem_append.2 (Or.inr hc), hg⟩
  | none =>
    rw [h1] at h
    dsimp only at h
    cases h2 : lookupL value_to_prefix (f % 10) with
    | some pw =>
      rw [h2] at h
      dsimp only at h
      cases h3 : lookupL factor_to_root (f - f % 10) with
      | some root =>
        rw [h3] at h
        cases h
        exact ⟨c, by simp [hc], hg⟩
      | none =>
        rw [h3] at h
        cases h
    | none =>
      rw [h2] at h
      cases h

/-- Every emitted magnitude word contains a lowercase non-`e` letter (from
its `-illion`/`-illiard` suffix). -/
theorem magnitude_word_good (ns : naming_system_t) (place : Nat) (w : List Char)
    (h : magnitude_word ns place = .ok w) :
    ∃ c ∈ w, isLowerCh c = true ∧ c ≠ 'e' := by
  rw [magnitude_word] at h
  by_cases hf : (if ns = .short_scale then (place - 3) / 3 else place / 6) > 100
  · rw [if_pos hf] at h
    cases h
  · rw [if_neg hf] at h
    refine magnitude_root_word_good _ _ _ ?_ h
    by_cases hr : (if ns = .short_scale then 0 else place % 6) = 3
    · rw [if_pos hr]
      exact ⟨'i', by decide, by decide, by decide⟩
    · rw [if_neg hr]
      exact ⟨'i', by decide, by decide, by decide⟩

/-- The group-closing emission is empty or contains a lowercase non-`e`
letter. -/
theorem group_end_emission_good (ns : naming_system_t) (any : Bool) (d : Char)
    (place : Nat) (w : List Char) (h : group_end_emission ns any d place = .ok w) :
    w = [] ∨ ∃ c ∈ w, isLowerCh c = true ∧ c ≠ 'e' := by
  rw [group_end_emission] at h
  by_cases h1 : any = true ∧ place ≥ 6 ∧ place % 3 = 0
  · rw [if_pos h1] at h
    exact Or.inr (magnitude_word_good _ _ _ h)
  · rw [if_neg h1] at h
    by_cases h2 : any = true ∧ place = 3
    · rw [if_pos h2] at h
      cases h
      exact Or.inr ⟨'t', by decide, by decide, by decide⟩
    · rw [if_neg h2] at h
      by_cases h3 : d ≠ '0' ∧ place % 3 = 2
      · rw [if_pos h3] at h
        cases h
        exact Or.inr ⟨'h', by decide, by decide, by decide⟩
      · rw [if_neg h3] at h
        cases h
        exact Or.inl rfl

/-- The digit loop of `parse_integral_numeral` emits the empty string or a
string containing a lowercase non-`e` letter. -/
theorem pin_go_good (ns : naming_system_t) (integral0 : List Char) :
    ∀ (l gd : List Char) (any added : Bool) (out : List Char),
    pin_go ns integral0 l any added gd = .ok out →
    out = [] ∨ ∃ c ∈ out, isLowerCh c = true ∧ c ≠ 'e' := by
  intro l
  induction l with
  | nil =>
    intro gd any added out h
    simp only [pin_go] at h
    cases h
    exact Or.inl rfl
  | cons digit rest ih =>
    intro gd any added out h
    simp only [pin_go] at h
    obtain ⟨enc, henc, h⟩ := except_bind_ok _ _ _ h
    obtain ⟨tw, htw, h⟩ := except_bind_ok _ _ _ h
    obtain ⟨o, ho, h⟩ := except_map_ok _ _ _ h
    rw [← h]
    exact good_char_append _ _
      (good_char_append _ _ (encode_term_good _ _ _ henc)
        (group_end_emission_good _ _ _ _ _ htw))
      (ih _ _ _ _ ho)

/-- Lowercase letters are not whitespace. -/
theorem lower_not_space (c : Char) (h : isLowerCh c = true) : isSpaceCh c = false := by
  cases hsp : isSpaceCh c
  · rfl
  · exfalso
    have h97 : 97 ≤ c.toNat := by
      simp only [isLowerCh, Bool.and_eq_true, decide_eq_true_eq] at h
      exact h.1
    simp only [isSpaceCh, Bool.or_eq_true, decide_eq_true_eq] at hsp
    rcases hsp with ((((hq | hq) | hq) | hq) | hq) | hq <;>
      (subst hq; exact absurd h97 (by decide))

/-- Non-whitespace characters survive the right trim. -/
theorem mem_rtrimL (out : List Char) (c : Char) (hc : c ∈ out)
    (hs : isSpaceCh c = false) : c ∈ rtrimL out := by
  rw [rtrimL, List.mem_reverse]
  have h2 : c ∈ out.reverse := List.mem_reverse.2 hc
  have hsplit : out.reverse.takeWhile isSpaceCh ++ out.reverse.dropWhile isSpaceCh
      = out.reverse := List.takeWhile_append_dropWhile isSpaceCh out.reverse
  rw [← hsplit] at h2
  rcases List.mem_append.1 h2 with h3 | h3
  · have := List.mem_takeWhile_imp h3
    rw [hs] at this
    cases this
  · exact h3

/-- `parse_integral_numeral` emits the empty string or a string containing
a lowercase non-`e` letter. -/
theorem parse_integral_numeral_good (integral : List Char)
    (opts : conversion_options_t) (out : List Char)
    (h : parse_integral_numeral integral opts = .ok out) :
    out = [] ∨ ∃ c ∈ out, isLowerCh c = true ∧ c ≠ 'e' := by
  rw [parse_integral_numeral] at h
  by_cases h0 : integral = []
  · rw [if_pos h0] at h
    cases h
    exact Or.inl rfl
  · rw [if_neg h0] at h
    obtain ⟨o, ho, h⟩ := except_map_ok _ _ _ h
    rw [← h]
    rcases pin_go_good _ _ _ _ _ _ _ ho with rfl | ⟨c, hc, hg⟩
    · exact Or.inl rfl
    · exact Or.inr ⟨c, mem_rtrimL o c hc (lower_not_space c hg.1), hg⟩

/-- Every nonempty output of `to_numeral` contains a lowercase letter other
than `e`: its words come from the vocabulary tables (each of whose words has
such a letter), from the fixed words `negative`, `point`, `thousand`,
`hundred`, or carry an `-illion`/`-illiard` suffix. -/
theorem to_numeral_chars (opts : conversion_options_t) (cs out : List Char)
    (h : to_numeral opts cs = .ok out) :
    out = [] ∨ ∃ c ∈ out, isLowerCh c = true ∧ c ≠ 'e' := by
  rw [to_numeral] at h
  by_cases h0 : cs = []
  · rw [if_pos h0] at h
    cases h
    exact Or.inl rfl
  · rw [if_neg h0] at h
    obtain ⟨parts?, hex, h⟩ := except_bind_ok _ _ _ h
    cases parts? with
    | none =>
      dsimp only at h
      cases h
      exact Or.inl rfl
    | some parts =>
      dsimp only at h
      obtain ⟨numeral1, hn1, h⟩ := except_bind_ok _ _ _ h
      have hneg0 : (if parts.negative = true then str ("negative") else []) = [] ∨
          ∃ c ∈ (if parts.negative = true then str ("negative") else []),
            isLowerCh c = true ∧ c ≠ 'e' := by
        by_cases hn : parts.negative = true
        · rw [if_pos hn]
          exact Or.inr ⟨'n', by decide, by decide, by decide⟩
        · rw [if_neg hn]
          exact Or.inl rfl
      have hgood1 : numeral1 = [] ∨ ∃ c ∈ numeral1, isLowerCh c = true ∧ c ≠ 'e' := by
        by_cases hi : parts.integral ≠ []
        · rw [if_pos hi] at hn1
          obtain ⟨pi, hpi, hfn⟩ := except_map_ok _ _ _ hn1
          rw [← hfn]
          rcases parse_integral_numeral_good _ _ _ hpi with rfl | ⟨c, hc, hg⟩
          · rw [if_neg (by simp)]
            exact hneg0
          · by_cases hpne : pi ≠ []
            · rw [if_pos hpne]
              by_cases hcnd : (if parts.negative = true then str ("negative") else []) = [] ∧
                  (parts.integral ≠ str ("0") ∨ opts.force_leading_zero = true)
              · rw [if_pos hcnd]
                exact Or.inr ⟨c, hc, hg⟩
              · rw [if_neg hcnd]
                by_cases hnn : (if parts.negative = true then str ("negative") else []) ≠ []
                · rw [if_pos hnn]
                  exact Or.inr ⟨c, List.mem_append.2 (Or.inr (List.mem_cons_of_mem _ hc)), hg⟩
                · rw [if_neg hnn]
                  exact hneg0
            · rw [if_neg hpne]
              exact hneg0
        · rw [if_neg hi] at hn1
          cases hn1
          exact hneg0
      by_cases hf : parts.fractional ≠ []
      · rw [if_pos hf] at h
        obtain ⟨pf, hpf, hfn⟩ := except_map_ok _ _ _ h
        rw [← hfn]
        by_cases hpf0 : pf ≠ []
        · rw [if_pos hpf0]
          by_cases hne : numeral1 = []
          · rw [if_pos hne]
            exact Or.inr ⟨'p', List.mem_append.2 (Or.inl (by decide)), by decide, by decide⟩
          · rw [if_neg hne]
            exact Or.inr ⟨'p',
              List.mem_append.2 (Or.inl (List.mem_append.2 (Or.inr (by decide)))),
              by decide, by decide⟩
        · rw [if_neg hpf0]
          exact hgood1
      · rw [if_neg hf] at h
        cases h
        exact hgood1

/-- A full number-pattern match confines every input character to digits,
the two separator symbols, the exponent marker and the minus sign. -/
theorem match_chars (thousands_separator_symbol decimal_separator_symbol : Char)
    (cs : List Char) (caps : RegexCaps)
    (h : numberRegexMatch thousands_separator_symbol decimal_separator_symbol cs =
      some caps) :
    ∀ c ∈ cs, isDigitCh c = true ∨ c = thousands_separator_symbol ∨
      c = decimal_separator_symbol ∨ c = 'e' ∨ c = '-' := by
  obtain ⟨sgn, cs1, rfl, hsgn, hcore⟩ := numberRegexMatch_sound _ _ _ _ h
  obtain ⟨I, F, E, rfl, _, _, hI, hF, hE⟩ := numberRegexCore_sound _ _ _ _ _ hcore
  intro c hc
  rcases List.mem_append.1 hc with hc | hc
  · rcases hsgn with ⟨rfl, _⟩ | ⟨rfl, _⟩
    · cases hc
    · rcases List.mem_singleton.1 hc with rfl
      exact Or.inr (Or.inr (Or.inr (Or.inr rfl)))
  · rcases List.mem_append.1 hc with hc | hc
    · rcases List.mem_append.1 hc with hc | hc
      · rcases hI with rfl | hg | ⟨_, hall⟩
        · cases hc
        · have hgc := grouped_integral_chars _ _ hg c hc
          simp only [Bool.or_eq_true] at hgc
          rcases hgc with hd | ht
          · exact Or.inl hd
          · exact Or.inr (Or.inl (of_decide_eq_true ht))
        · exact Or.inl (List.all_eq_true.1 hall c hc)
      · rcases hF with ⟨rfl, _⟩ | ⟨fd, rfl, _, _, hall⟩
        · cases hc
        · rcases List.mem_cons.1 hc with rfl | hc2
          · exact Or.inr (Or.inr (Or.inl rfl))
          · exact Or.inl (List.all_eq_true.1 hall c hc2)
    · rcases hE with ⟨rfl, _⟩ | ⟨es, ed, rfl, _, hes, _, hall⟩
      · cases hc
      · rcases List.mem_cons.1 hc with rfl | hc2
        · exact Or.inr (Or.inr (Or.inr (Or.inl rfl)))
        · rcases List.mem_append.1 hc2 with hc3 | hc3
          · rcases hes with rfl | rfl
            · cases hc3
            · rcases List.mem_singleton.1 hc3 with rfl
              exact Or.inr (Or.inr (Or.inr (Or.inr rfl)))
          · exact Or.inl (List.all_eq_true.1 hall c hc3)

/-- The empty string is not a number: the pattern matches it with every
capture empty, so `extract_number_parts` reports no parts. -/
theorem is_number_nil (opts : conversion_options_t) :
    is_number opts [] = .ok false := rfl

/-- A string containing a lowercase letter other than `e` is not a number
(when neither separator symbol is such a letter). -/
theorem is_number_letter_false (opts : conversion_options_t)
    (hT : isLowerCh opts.thousands_separator_symbol = false)
    (hD : isLowerCh opts.decimal_separator_symbol = false)
    (out : List Char) (c : Char) (hc : c ∈ out)
    (hg : isLowerCh c = true) (hce : c ≠ 'e') :
    is_number opts out = .ok false := by
  cases hm : numberRegexMatch opts.thousands_separator_symbol
      opts.decimal_separator_symbol out with
  | none =>
    simp only [is_number, extract_number_parts, hm]
    rfl
  | some caps =>
    exfalso
    have h97 : 97 ≤ c.toNat ∧ c.toNat ≤ 122 := by
      simp only [isLowerCh, Bool.and_eq_true, decide_eq_true_eq] at hg
      exact ⟨hg.1, hg.2⟩
    rcases match_chars _ _ _ _ hm c hc with hd | rfl | rfl | rfl | rfl
    · have h09 : 48 ≤ c.toNat ∧ c.toNat ≤ 57 := by
        simp only [isDigitCh, Bool.and_eq_true, decide_eq_true_eq] at hd
        exact ⟨hd.1, hd.2⟩
      omega
    · rw [hg] at hT
      cases hT
    · rw [hg] at hD
      cases hD
    · exact hce rfl
    · exact absurd hg (by decide)

/-- C1 counterexample: the input 00 is accepted by `is_number`, yet the
round trip collapses -- `to_numeral` emits no words for it (every digit is
zero, and the leading-zero clause requires the integral part to equal `0`
exactly), so `to_number` of the result throws the empty-numeral error
instead of producing any normalization of 00. -/
theorem C1_counterexample :
    is_number default_options (str ("00")) = .ok true ∧
    to_numeral default_options (str ("00")) = .ok [] ∧
    to_number default_options [] = .error .emptyNumeral := ⟨rfl, rfl, rfl⟩

/-- C1 (amended): for every option set whose separator symbols are not
lowercase letters, and every accepted number on which `to_numeral`
succeeds, the produced numeral is not itself a number: `is_number` answers
`false` on it.  (The other half of the round trip fails: see the
counterexample, where `to_number` of the produced numeral throws instead
of returning a normalization of the input.) -/
theorem C1_no_numeral_is_number (opts : conversion_options_t) (cs out : List Char)
    (hT : isLowerCh opts.thousands_separator_symbol = false)
    (hD : isLowerCh opts.decimal_separator_symbol = false)
    (hacc : is_number opts cs = .ok true)
    (hconv : to_numeral opts cs = .ok out) :
    is_number opts out = .ok false := by
  rcases to_numeral_chars opts cs out hconv with rfl | ⟨c, hc, hg, hce⟩
  · exact is_number_nil opts
  · exact is_number_letter_false opts hT hD out c hc hg hce

/-- Witness for `C1_no_numeral_is_number` at the input 7: the default
separators are punctuation, 7 is a number, its numeral is seven, and
seven is not a number. -/
theorem C1_no_numeral_is_number_witness :
    isLowerCh default_options.thousands_separator_symbol = false ∧
    isLowerCh default_options.decimal_separator_symbol = false ∧
    is_number default_options (str ("7")) = .ok true ∧
    to_numeral default_options (str ("7")) = .ok (str ("seven")) ∧
    is_number default_options (str ("seven")) = .ok false :=
  ⟨by decide, by decide, rfl, rfl,
    C1_no_numeral_is_number default_options (str ("7")) (str ("seven"))
      (by decide) (by decide) rfl rfl⟩

end num
